import Mathlib

/-!
# Verification of the `Cryptography` repository (Caesar and RSA-per-letter scripts)

Shallow embedding of the two JavaScript sources:

* `src/cesare/cesare.js` — Caesar cipher, letter-frequency analysis, and the
  chi-squared shift-recovery attack against the fixed Italian reference
  distribution.
* `src/unnamed/part_000` — two scripts: `rsa_freq.js` (RSA-per-letter
  permutation cipher over `A`–`Z`, bigint modular arithmetic, rank-alignment
  frequency attack) and `rsa_attack.js` (RSA-per-letter over a 27-symbol
  alphabet `A`–`Z` plus space, frequency seeding and bigram-scored
  hill-climbing).

Conventions used throughout the embedding:

* Letters are represented by their alphabet indices (`0 = A`, …, `25 = Z`; in
  the 27-symbol script, `26` is the space character).  Strings of letters are
  `List ℕ`; in `cesare.js` a value `≥ 26` stands for a non-letter character,
  which `caesarShift` passes through and `freqCount` ignores, exactly as the
  JavaScript regular expressions do.
* JavaScript `number`/`BigInt` arithmetic on the integers appearing here is
  exact, and is embedded as `ℕ`/`ℤ` arithmetic.  Decimal literals of the
  Italian frequency table and the chi-squared statistic are embedded as the
  exact rationals denoted by the source literals.
* JavaScript `Map` objects are embedded as association lists
  `List (ℕ × ℕ)` in insertion order: `Map.get` is `List.lookup`, `Map.set`
  is `mset` (update the existing entries of the key in place, otherwise
  append), `Map.values()` is the list of second components.
* Fallible functions (`throw`) return `Option`, with `none` for the throw.
* The source loops that recurse on `e / 2` (binary exponentiation) and on
  `a % b` (extended gcd) are embedded with an explicit structural fuel
  argument, called with enough fuel that the fuel is never exhausted; the
  fuel only drives termination and does not change the computed value.
-/

/-! ## `cesare.js`: frequency analysis and the chi-squared attack -/

/-- The fixed Italian letter-frequency table `ITALIAN_FREQ` of `cesare.js`,
indexed by letter index `0 = A`, …, `25 = Z`.  The decimal literals of the
source are embedded as exact rationals. -/
def ITALIAN_FREQ : List ℚ :=
  [1174/100, 92/100, 450/100, 373/100, 1179/100, 95/100, 164/100, 154/100,
   1014/100, 0, 0, 651/100, 251/100, 688/100, 983/100, 305/100, 51/100,
   637/100, 498/100, 562/100, 301/100, 210/100, 0, 0, 0, 118/100]

/-- Expected percentage of the letter with index `i` (`ITALIAN_FREQ[L]`). -/
def italianFreq (i : ℕ) : ℚ := ITALIAN_FREQ.getD i 0

/-- The `eps` floor of `chiSquared` in `cesare.js`: `1e-6`. -/
def chiEps : ℚ := 1/1000000

/-- `freqCount` of `cesare.js`, percentage part: the percentage of the letter
with index `i` in the text `t`, namely `counts[L] * 100 / n` where
`n = t.length || 1` (the length, with `0` replaced by `1`). -/
def freqPerc (t : List ℕ) (i : ℕ) : ℚ :=
  (t.count i * 100 : ℚ) / (if t.length = 0 then 1 else t.length)

/-- `caesarShift` of `cesare.js`: shift every letter by `k` modulo 26,
leaving non-letters (values `≥ 26`) unchanged. -/
def caesarShift (t : List ℕ) (k : ℕ) : List ℕ :=
  t.map fun v => if v < 26 then (v + k) % 26 else v

/-- `chiSquared` of `cesare.js`: `Σ_L (observed% − expected%)² / max(expected%, eps)`
over the 26 letters, against the Italian reference distribution. -/
def chiSquared (obs : ℕ → ℚ) : ℚ :=
  ((List.range 26).map fun i =>
    (obs i - italianFreq i)^2 / max (italianFreq i) chiEps).sum

/-- The chi-squared value the attack assigns to decoding the ciphertext with
candidate shift `s` (decode = shift forward by `s`, as in
`caesarShift(cipher, (26-k)%26)` with `s = (26-k)%26`). -/
def chiAt (cipher : List ℕ) (s : ℕ) : ℚ :=
  chiSquared (freqPerc (caesarShift cipher s))

/-- `bestShiftByFrequency` of `cesare.js`.  The loop scans `k = 0, …, 25`,
decodes with shift `(26 - k) % 26`, and keeps the candidate whenever its
chi-squared value is strictly below the best so far; the initial best has
chi-squared `Infinity`, embedded as `none`.  Returns the winning shift
together with its chi-squared value. -/
def bestShiftByFrequency (cipher : List ℕ) : ℕ × Option ℚ :=
  (List.range 26).foldl
    (fun best k =>
      let s := (26 - k) % 26
      let chi := chiAt cipher s
      match best.2 with
      | none => (s, some chi)
      | some c => if chi < c then (s, some chi) else best)
    (0, none)

/-! ### C9: percentages sum to 100 -/

lemma sum_indicator_const (l : List ℕ) (a : ℕ) (c : ℚ) (hnd : l.Nodup) (hmem : a ∈ l) :
    (l.map fun i => (if i = a then c else 0)).sum = c := by
  induction l with
  | nil => cases hmem
  | cons x xs ih =>
    rcases List.mem_cons.mp hmem with hax | hax
    · subst hax
      have hnotin : a ∉ xs := (List.nodup_cons.mp hnd).1
      have hz : (xs.map fun i => (if i = a then c else 0)).sum = 0 := by
        have : ∀ i ∈ xs, (if i = a then c else 0) = 0 := by
          intro i hi
          have : i ≠ a := fun h => hnotin (h ▸ hi)
          simp [this]
        rw [List.map_congr_left this]
        simp
      simp [hz]
    · have hx : x ≠ a := by
        intro h
        exact (List.nodup_cons.mp hnd).1 (h ▸ hax)
      simp [hx, ih (List.nodup_cons.mp hnd).2 hax]

lemma sum_count_range (t : List ℕ) (h : ∀ v ∈ t, v < 26) :
    ((List.range 26).map fun i => (t.count i : ℚ)).sum = t.length := by
  induction t with
  | nil => simp
  | cons a t ih =>
    have ha : a < 26 := h a (List.mem_cons_self a t)
    have ht : ∀ v ∈ t, v < 26 := fun v hv => h v (List.mem_cons_of_mem a hv)
    have : ∀ i ∈ List.range 26,
        ((a :: t).count i : ℚ) = (t.count i : ℚ) + (if i = a then 1 else 0) := by
      intro i _
      by_cases hia : i = a
      · subst hia
        simp [List.count_cons]
      · simp [List.count_cons, hia, Ne.symm]
    rw [List.map_congr_left this]
    have hsplit :
        ((List.range 26).map fun i => (t.count i : ℚ) + (if i = a then 1 else 0)).sum
          = ((List.range 26).map fun i => (t.count i : ℚ)).sum
            + ((List.range 26).map fun i => (if i = a then (1:ℚ) else 0)).sum := by
      induction (List.range 26) with
      | nil => simp
      | cons x xs ihx => simp [ihx]; ring
    rw [hsplit, ih ht]
    have hone : ((List.range 26).map fun i => (if i = a then (1:ℚ) else 0)).sum = 1 :=
      sum_indicator_const (List.range 26) a 1 (List.nodup_range 26) (List.mem_range.mpr ha)
    rw [hone]
    push_cast [List.length_cons]
    ring

lemma sum_map_div (l : List ℚ) (d : ℚ) : (l.map fun x => x / d).sum = l.sum / d := by
  induction l with
  | nil => simp
  | cons a l ih => simp [ih, add_div]

/-- C9: for every non-empty input all of whose symbols are letters `A`–`Z`,
the 26 percentages of `freqCount` sum to exactly 100; for the empty input the
denominator `t.length || 1` is `1`, and every count and every percentage is
`0`, so no division by zero occurs. -/
theorem freqCount_percentages_sum (t : List ℕ) (hne : t ≠ [])
    (hAZ : ∀ v ∈ t, v < 26) :
    ((List.range 26).map (freqPerc t)).sum = 100
      ∧ (∀ i, freqPerc [] i = 0 ∧ ([] : List ℕ).count i = 0)
      ∧ (if ([] : List ℕ).length = 0 then 1 else (([] : List ℕ).length : ℚ)) = 1 := by
  refine ⟨?_, fun i => ⟨by simp [freqPerc], by simp⟩, by simp⟩
  have hlen : t.length ≠ 0 := fun h => hne (List.length_eq_zero.mp h)
  have hfp : ∀ i ∈ List.range 26,
      freqPerc t i = ((t.count i : ℚ) * 100) / (t.length : ℚ) := by
    intro i _
    simp [freqPerc, hlen]
  rw [List.map_congr_left hfp]
  have : ((List.range 26).map fun i => ((t.count i : ℚ) * 100) / (t.length : ℚ))
      = ((List.range 26).map fun i => ((t.count i : ℚ) * 100)).map
          (fun x => x / (t.length : ℚ)) := by
    simp [List.map_map, Function.comp]
  rw [this, sum_map_div]
  have hmul : ((List.range 26).map fun i => ((t.count i : ℚ) * 100)).sum
      = ((List.range 26).map fun i => (t.count i : ℚ)).sum * 100 := by
    induction (List.range 26) with
    | nil => simp
    | cons x xs ihx => simp [ihx]; ring
  rw [hmul, sum_count_range t hAZ]
  have hlQ : (t.length : ℚ) ≠ 0 := by
    exact_mod_cast hlen
  field_simp

/-- Witness for `freqCount_percentages_sum` at the concrete one-letter text
`[0]` (the string `"A"`). -/
theorem freqCount_percentages_sum_witness :
    ([0] : List ℕ) ≠ [] ∧ (∀ v ∈ ([0] : List ℕ), v < 26) ∧
      ((List.range 26).map (freqPerc [0])).sum = 100 := by
  refine ⟨by decide, by decide, ?_⟩
  exact (freqCount_percentages_sum [0] (by decide) (by decide)).1

/-! ### C3: the selected shift minimizes chi-squared; scan-order tie-break -/

/-- One iteration of the `bestShiftByFrequency` loop at loop counter `k`. -/
def bestShiftStep (cipher : List ℕ) (best : ℕ × Option ℚ) (k : ℕ) : ℕ × Option ℚ :=
  let s := (26 - k) % 26
  let chi := chiAt cipher s
  match best.2 with
  | none => (s, some chi)
  | some c => if chi < c then (s, some chi) else best

lemma bestShiftByFrequency_eq_fold (cipher : List ℕ) :
    bestShiftByFrequency cipher
      = (List.range 26).foldl (bestShiftStep cipher) (0, none) := rfl

lemma bestShift_fold_spec (cipher : List ℕ) :
    ∀ m, 1 ≤ m → m ≤ 26 →
      ∃ k, k < m
        ∧ (List.range m).foldl (bestShiftStep cipher) (0, none)
            = ((26 - k) % 26, some (chiAt cipher ((26 - k) % 26)))
        ∧ (∀ j, j < m → chiAt cipher ((26 - k) % 26) ≤ chiAt cipher ((26 - j) % 26))
        ∧ (∀ j, j < k → chiAt cipher ((26 - k) % 26) < chiAt cipher ((26 - j) % 26)) := by
  intro m hm1 hm26
  induction m with
  | zero => omega
  | succ m ih =>
    by_cases hm0 : m = 0
    · subst hm0
      refine ⟨0, by omega, ?_, ?_, ?_⟩
      · simp [List.range_succ, bestShiftStep]
      · intro j hj
        interval_cases j
        exact le_refl _
      · intro j hj
        omega
    · obtain ⟨k, hk, heq, hmin, hstrict⟩ := ih (by omega) (by omega)
      rw [List.range_succ, List.foldl_append, heq]
      by_cases hlt : chiAt cipher ((26 - m) % 26) < chiAt cipher ((26 - k) % 26)
      · refine ⟨m, by omega, ?_, ?_, ?_⟩
        · simp only [List.foldl_cons, List.foldl_nil, bestShiftStep]
          simp [hlt]
        · intro j hj
          rcases Nat.lt_succ_iff_lt_or_eq.mp hj with hj' | hj'
          · exact le_of_lt (lt_of_lt_of_le hlt (hmin j hj'))
          · subst hj'
            exact le_refl _
        · intro j hj
          exact lt_of_lt_of_le hlt (hmin j hj)
      · refine ⟨k, by omega, ?_, ?_, hstrict⟩
        · simp only [List.foldl_cons, List.foldl_nil, bestShiftStep]
          simp [hlt]
        · intro j hj
          rcases Nat.lt_succ_iff_lt_or_eq.mp hj with hj' | hj'
          · exact hmin j hj'
          · subst hj'
            exact not_lt.mp hlt

lemma shift_scan_surj (s : ℕ) (hs : s < 26) : (26 - ((26 - s) % 26)) % 26 = s := by
  omega

/-- C3 (amended): `bestShiftByFrequency` returns a shift whose full decoding
minimizes the chi-squared statistic against the Italian reference
distribution; when several shifts attain the minimum, the first candidate
encountered in the loop's scan order wins.  The loop scans loop counter
`k = 0, 1, …, 25` and tries shift `(26 − k) % 26`, i.e. the shifts in the
order `0, 25, 24, …, 1` — not in increasing shift order. -/
theorem bestShiftByFrequency_minimizes (cipher : List ℕ) :
    ∃ k, k < 26
      ∧ bestShiftByFrequency cipher
          = ((26 - k) % 26, some (chiAt cipher ((26 - k) % 26)))
      ∧ (∀ s, s < 26 → chiAt cipher ((26 - k) % 26) ≤ chiAt cipher s)
      ∧ (∀ j, j < k → chiAt cipher ((26 - k) % 26) < chiAt cipher ((26 - j) % 26)) := by
  obtain ⟨k, hk, heq, hmin, hstrict⟩ := bestShift_fold_spec cipher 26 (by omega) (by omega)
  refine ⟨k, hk, by rw [bestShiftByFrequency_eq_fold]; exact heq, ?_, hstrict⟩
  intro s hs
  have := hmin ((26 - s) % 26) (by omega)
  rwa [shift_scan_surj s hs] at this

/-- Witness for `bestShiftByFrequency_minimizes` at the concrete ciphertext
`[0]` (the string `"A"`): the returned shift's chi-squared is at most the
chi-squared of shift `3`, and the returned chi-squared value is the
chi-squared of the returned shift. -/
theorem bestShiftByFrequency_minimizes_witness :
    chiAt [0] (bestShiftByFrequency [0]).1 ≤ chiAt [0] 3
      ∧ (bestShiftByFrequency [0]).2 = some (chiAt [0] (bestShiftByFrequency [0]).1) := by
  obtain ⟨k, hk, heq, hmin, _⟩ := bestShiftByFrequency_minimizes [0]
  rw [heq]
  exact ⟨hmin 3 (by norm_num), rfl⟩

lemma sum_map_add (l : List ℕ) (f g : ℕ → ℚ) :
    (l.map fun i => f i + g i).sum = (l.map f).sum + (l.map g).sum := by
  induction l with
  | nil => simp
  | cons x xs ih => simp [ih]; ring

/-- Chi-squared of a two-letter decoded text `[a, b]` (distinct letters, each
with observed percentage 50) decomposes as the all-zero-observation sum plus
one correction per occurring letter. -/
lemma chiSquared_pair (a b : ℕ) (hab : a ≠ b) (ha : a < 26) (hb : b < 26) :
    chiSquared (freqPerc [a, b])
      = chiSquared (fun _ => 0)
        + ((50 - italianFreq a)^2 - italianFreq a^2) / max (italianFreq a) chiEps
        + ((50 - italianFreq b)^2 - italianFreq b^2) / max (italianFreq b) chiEps := by
  have hpt : ∀ i ∈ List.range 26,
      (freqPerc [a, b] i - italianFreq i)^2 / max (italianFreq i) chiEps
        = ((0:ℚ) - italianFreq i)^2 / max (italianFreq i) chiEps
          + ((if i = a then ((50 - italianFreq a)^2 - italianFreq a^2) / max (italianFreq a) chiEps else 0)
            + (if i = b then ((50 - italianFreq b)^2 - italianFreq b^2) / max (italianFreq b) chiEps else 0)) := by
    intro i _
    by_cases hia : i = a
    · subst hia
      have hib : i ≠ b := hab
      have hfp : freqPerc [i, b] i = 50 := by
        rw [freqPerc]
        norm_num [List.count_cons, hib]
      rw [hfp, if_pos rfl, if_neg hib, add_zero, div_add_div_same]
      congr 1
      ring
    · by_cases hib : i = b
      · subst hib
        have hfp : freqPerc [a, i] i = 50 := by
          rw [freqPerc]
          norm_num [List.count_cons, Ne.symm hia]
        rw [hfp, if_neg hia, if_pos rfl, zero_add, div_add_div_same]
        congr 1
        ring
      · have hfp : freqPerc [a, b] i = 0 := by
          simp [freqPerc, List.count_cons, hia, hib]
        rw [hfp]
        simp [hia, hib]
  unfold chiSquared
  rw [List.map_congr_left hpt, sum_map_add, sum_map_add,
      sum_indicator_const (List.range 26) a _ (List.nodup_range 26) (List.mem_range.mpr ha),
      sum_indicator_const (List.range 26) b _ (List.nodup_range 26) (List.mem_range.mpr hb)]
  ring

set_option maxHeartbeats 2000000 in
/-- C3 counterexample to the claimed tie-break: on the ciphertext `[4, 17]`
(the string `"ER"`), the shifts `9` and `22` attain exactly the same
chi-squared value, yet the function returns `22` and not a shift `≤ 9` — so
the winner is not the first minimizing candidate in increasing shift order
(the scan tries shift `22` at loop counter `k = 4`, before shift `9` at
`k = 17`). -/
theorem bestShiftByFrequency_tiebreak_counterexample :
    (bestShiftByFrequency [4, 17]).1 = 22
      ∧ chiAt [4, 17] 9 = chiAt [4, 17] 22
      ∧ (9 : ℕ) < 22 := by
  have hr : List.range 26
      = [0,1,2,3,4,5,6,7,8,9,10,11,12,13,14,15,16,17,18,19,20,21,22,23,24,25] := rfl
  have hc0 : chiAt [4, 17] 0 = chiSquared (fun _ => 0) + 303795400/751023 := by
    unfold chiAt
    rw [show caesarShift [4, 17] 0 = [4, 17] from by decide,
      chiSquared_pair 4 17 (by norm_num) (by norm_num) (by norm_num), add_assoc]
    norm_num [italianFreq, ITALIAN_FREQ, chiEps, add_right_inj]
  have hc1 : chiAt [4, 17] 1 = chiSquared (fun _ => 0) + 13878800/4731 := by
    unfold chiAt
    rw [show caesarShift [4, 17] 1 = [5, 18] from by decide,
      chiSquared_pair 5 18 (by norm_num) (by norm_num) (by norm_num), add_assoc]
    norm_num [italianFreq, ITALIAN_FREQ, chiEps, add_right_inj]
  have hc2 : chiAt [4, 17] 2 = chiSquared (fun _ => 0) + 20383300/11521 := by
    unfold chiAt
    rw [show caesarShift [4, 17] 2 = [6, 19] from by decide,
      chiSquared_pair 6 19 (by norm_num) (by norm_num) (by norm_num), add_assoc]
    norm_num [italianFreq, ITALIAN_FREQ, chiEps, add_right_inj]
  have hc3 : chiAt [4, 17] 3 = chiSquared (fun _ => 0) + 7462800/3311 := by
    unfold chiAt
    rw [show caesarShift [4, 17] 3 = [7, 20] from by decide,
      chiSquared_pair 7 20 (by norm_num) (by norm_num) (by norm_num), add_assoc]
    norm_num [italianFreq, ITALIAN_FREQ, chiEps, add_right_inj]
  have hc4 : chiAt [4, 17] 4 = chiSquared (fun _ => 0) + 1463400/1183 := by
    unfold chiAt
    rw [show caesarShift [4, 17] 4 = [8, 21] from by decide,
      chiSquared_pair 8 21 (by norm_num) (by norm_num) (by norm_num), add_assoc]
    norm_num [italianFreq, ITALIAN_FREQ, chiEps, add_right_inj]
  have hc5 : chiAt [4, 17] 5 = chiSquared (fun _ => 0) + 5000000000 := by
    unfold chiAt
    rw [show caesarShift [4, 17] 5 = [9, 22] from by decide,
      chiSquared_pair 9 22 (by norm_num) (by norm_num) (by norm_num), add_assoc]
    norm_num [italianFreq, ITALIAN_FREQ, chiEps, add_right_inj]
  have hc6 : chiAt [4, 17] 6 = chiSquared (fun _ => 0) + 5000000000 := by
    unfold chiAt
    rw [show caesarShift [4, 17] 6 = [10, 23] from by decide,
      chiSquared_pair 10 23 (by norm_num) (by norm_num) (by norm_num), add_assoc]
    norm_num [italianFreq, ITALIAN_FREQ, chiEps, add_right_inj]
  have hc7 : chiAt [4, 17] 7 = chiSquared (fun _ => 0) + 1627500184900/651 := by
    unfold chiAt
    rw [show caesarShift [4, 17] 7 = [11, 24] from by decide,
      chiSquared_pair 11 24 (by norm_num) (by norm_num) (by norm_num), add_assoc]
    norm_num [italianFreq, ITALIAN_FREQ, chiEps, add_right_inj]
  have hc8 : chiAt [4, 17] 8 = chiSquared (fun _ => 0) + 43163200/14809 := by
    unfold chiAt
    rw [show caesarShift [4, 17] 8 = [12, 25] from by decide,
      chiSquared_pair 12 25 (by norm_num) (by norm_num) (by norm_num), add_assoc]
    norm_num [italianFreq, ITALIAN_FREQ, chiEps, add_right_inj]
  have hc9 : chiAt [4, 17] 9 = chiSquared (fun _ => 0) + 9498675/25241 := by
    unfold chiAt
    rw [show caesarShift [4, 17] 9 = [13, 0] from by decide,
      chiSquared_pair 13 0 (by norm_num) (by norm_num) (by norm_num), add_assoc]
    norm_num [italianFreq, ITALIAN_FREQ, chiEps, add_right_inj]
  have hc10 : chiAt [4, 17] 10 = chiSquared (fun _ => 0) + 62665700/22609 := by
    unfold chiAt
    rw [show caesarShift [4, 17] 10 = [14, 1] from by decide,
      chiSquared_pair 14 1 (by norm_num) (by norm_num) (by norm_num), add_assoc]
    norm_num [italianFreq, ITALIAN_FREQ, chiEps, add_right_inj]
  have hc11 : chiAt [4, 17] 11 = chiSquared (fun _ => 0) + 645200/549 := by
    unfold chiAt
    rw [show caesarShift [4, 17] 11 = [15, 2] from by decide,
      chiSquared_pair 15 2 (by norm_num) (by norm_num) (by norm_num), add_assoc]
    norm_num [italianFreq, ITALIAN_FREQ, chiEps, add_right_inj]
  have hc12 : chiAt [4, 17] 12 = chiSquared (fun _ => 0) + 102195400/19023 := by
    unfold chiAt
    rw [show caesarShift [4, 17] 12 = [16, 3] from by decide,
      chiSquared_pair 16 3 (by norm_num) (by norm_num) (by norm_num), add_assoc]
    norm_num [italianFreq, ITALIAN_FREQ, chiEps, add_right_inj]
  have hc13 : chiAt [4, 17] 13 = chiSquared (fun _ => 0) + 303795400/751023 := by
    unfold chiAt
    rw [show caesarShift [4, 17] 13 = [17, 4] from by decide,
      chiSquared_pair 17 4 (by norm_num) (by norm_num) (by norm_num), add_assoc]
    norm_num [italianFreq, ITALIAN_FREQ, chiEps, add_right_inj]
  have hc14 : chiAt [4, 17] 14 = chiSquared (fun _ => 0) + 13878800/4731 := by
    unfold chiAt
    rw [show caesarShift [4, 17] 14 = [18, 5] from by decide,
      chiSquared_pair 18 5 (by norm_num) (by norm_num) (by norm_num), add_assoc]
    norm_num [italianFreq, ITALIAN_FREQ, chiEps, add_right_inj]
  have hc15 : chiAt [4, 17] 15 = chiSquared (fun _ => 0) + 20383300/11521 := by
    unfold chiAt
    rw [show caesarShift [4, 17] 15 = [19, 6] from by decide,
      chiSquared_pair 19 6 (by norm_num) (by norm_num) (by norm_num), add_assoc]
    norm_num [italianFreq, ITALIAN_FREQ, chiEps, add_right_inj]
  have hc16 : chiAt [4, 17] 16 = chiSquared (fun _ => 0) + 7462800/3311 := by
    unfold chiAt
    rw [show caesarShift [4, 17] 16 = [20, 7] from by decide,
      chiSquared_pair 20 7 (by norm_num) (by norm_num) (by norm_num), add_assoc]
    norm_num [italianFreq, ITALIAN_FREQ, chiEps, add_right_inj]
  have hc17 : chiAt [4, 17] 17 = chiSquared (fun _ => 0) + 1463400/1183 := by
    unfold chiAt
    rw [show caesarShift [4, 17] 17 = [21, 8] from by decide,
      chiSquared_pair 21 8 (by norm_num) (by norm_num) (by norm_num), add_assoc]
    norm_num [italianFreq, ITALIAN_FREQ, chiEps, add_right_inj]
  have hc18 : chiAt [4, 17] 18 = chiSquared (fun _ => 0) + 5000000000 := by
    unfold chiAt
    rw [show caesarShift [4, 17] 18 = [22, 9] from by decide,
      chiSquared_pair 22 9 (by norm_num) (by norm_num) (by norm_num), add_assoc]
    norm_num [italianFreq, ITALIAN_FREQ, chiEps, add_right_inj]
  have hc19 : chiAt [4, 17] 19 = chiSquared (fun _ => 0) + 5000000000 := by
    unfold chiAt
    rw [show caesarShift [4, 17] 19 = [23, 10] from by decide,
      chiSquared_pair 23 10 (by norm_num) (by norm_num) (by norm_num), add_assoc]
    norm_num [italianFreq, ITALIAN_FREQ, chiEps, add_right_inj]
  have hc20 : chiAt [4, 17] 20 = chiSquared (fun _ => 0) + 1627500184900/651 := by
    unfold chiAt
    rw [show caesarShift [4, 17] 20 = [24, 11] from by decide,
      chiSquared_pair 24 11 (by norm_num) (by norm_num) (by norm_num), add_assoc]
    norm_num [italianFreq, ITALIAN_FREQ, chiEps, add_right_inj]
  have hc21 : chiAt [4, 17] 21 = chiSquared (fun _ => 0) + 43163200/14809 := by
    unfold chiAt
    rw [show caesarShift [4, 17] 21 = [25, 12] from by decide,
      chiSquared_pair 25 12 (by norm_num) (by norm_num) (by norm_num), add_assoc]
    norm_num [italianFreq, ITALIAN_FREQ, chiEps, add_right_inj]
  have hc22 : chiAt [4, 17] 22 = chiSquared (fun _ => 0) + 9498675/25241 := by
    unfold chiAt
    rw [show caesarShift [4, 17] 22 = [0, 13] from by decide,
      chiSquared_pair 0 13 (by norm_num) (by norm_num) (by norm_num), add_assoc]
    norm_num [italianFreq, ITALIAN_FREQ, chiEps, add_right_inj]
  have hc23 : chiAt [4, 17] 23 = chiSquared (fun _ => 0) + 62665700/22609 := by
    unfold chiAt
    rw [show caesarShift [4, 17] 23 = [1, 14] from by decide,
      chiSquared_pair 1 14 (by norm_num) (by norm_num) (by norm_num), add_assoc]
    norm_num [italianFreq, ITALIAN_FREQ, chiEps, add_right_inj]
  have hc24 : chiAt [4, 17] 24 = chiSquared (fun _ => 0) + 645200/549 := by
    unfold chiAt
    rw [show caesarShift [4, 17] 24 = [2, 15] from by decide,
      chiSquared_pair 2 15 (by norm_num) (by norm_num) (by norm_num), add_assoc]
    norm_num [italianFreq, ITALIAN_FREQ, chiEps, add_right_inj]
  have hc25 : chiAt [4, 17] 25 = chiSquared (fun _ => 0) + 102195400/19023 := by
    unfold chiAt
    rw [show caesarShift [4, 17] 25 = [3, 16] from by decide,
      chiSquared_pair 3 16 (by norm_num) (by norm_num) (by norm_num), add_assoc]
    norm_num [italianFreq, ITALIAN_FREQ, chiEps, add_right_inj]

  refine ⟨?_, by rw [hc9, hc22], by norm_num⟩
  rw [bestShiftByFrequency_eq_fold, hr]
  simp only [List.foldl_cons, List.foldl_nil]
  norm_num [bestShiftStep, hc0, hc1, hc2, hc3, hc4, hc5, hc6, hc7, hc8, hc9, hc10, hc11, hc12,
    hc13, hc14, hc15, hc16, hc17, hc18, hc19, hc20, hc21, hc22, hc23, hc24, hc25,
    add_lt_add_iff_left]

/-! ## Modular arithmetic of the RSA scripts (`src/unnamed/part_000`) -/

/-- The square-and-multiply loop shared by `modPowBig` (`rsa_freq.js`) and
`modPow` (`rsa_attack.js`): while `e > 0`, multiply the accumulator `r` by `b`
when the low bit of `e` is set, square `b`, and halve `e` — all modulo `m`.
The first argument is structural fuel; the callers pass `fuel = exp`, which
always suffices since the exponent at least halves each step. -/
def modPowGo : ℕ → ℕ → ℕ → ℕ → ℕ → ℕ
  | 0, _, _, r, _ => r
  | fuel + 1, b, e, r, m =>
    if e = 0 then r
    else modPowGo fuel (b * b % m) (e / 2) (if e % 2 = 1 then r * b % m else r) m

/-- `modPowBig(base, exp, mod)` of `rsa_freq.js`: reduces the base modulo
`mod` first (`b = base % mod`), then runs binary exponentiation. -/
def modPowBig (base exp mod : ℕ) : ℕ := modPowGo exp (base % mod) exp 1 mod

/-- `modPow(base, exp, mod)` of `rsa_attack.js`: reduces the base by
`((base % mod) + mod) % mod` (a no-op beyond `base % mod` for the
non-negative bases used here), then runs the same loop. -/
def modPow (base exp mod : ℕ) : ℕ := modPowGo exp ((base % mod + mod) % mod) exp 1 mod

lemma modPowGo_spec : ∀ fuel b e r m : ℕ, e ≤ fuel → 2 ≤ m → r < m →
    modPowGo fuel b e r m = (r * b ^ e) % m := by
  intro fuel
  induction fuel with
  | zero =>
    intro b e r m he hm hr
    have he0 : e = 0 := by omega
    subst he0
    simp [modPowGo, Nat.mod_eq_of_lt hr]
  | succ fuel ih =>
    intro b e r m he hm hr
    by_cases he0 : e = 0
    · subst he0
      simp [modPowGo, Nat.mod_eq_of_lt hr]
    · have hstep : modPowGo (fuel + 1) b e r m
          = modPowGo fuel (b * b % m) (e / 2) (if e % 2 = 1 then r * b % m else r) m := by
        simp [modPowGo, he0]
      have hr' : (if e % 2 = 1 then r * b % m else r) < m := by
        by_cases h2 : e % 2 = 1
        · simp only [if_pos h2]
          exact Nat.mod_lt _ (by omega)
        · simp only [if_neg h2]
          exact hr
      rw [hstep, ih _ _ _ _ (by omega) hm hr']
      have e1 : (b * b % m) ≡ b * b [MOD m] := Nat.mod_modEq _ _
      have e2 : (if e % 2 = 1 then r * b % m else r) ≡ r * b ^ (e % 2) [MOD m] := by
        by_cases h2 : e % 2 = 1
        · simp only [if_pos h2, h2, pow_one]
          exact Nat.mod_modEq _ _
        · have h0 : e % 2 = 0 := by omega
          rw [if_neg h2, h0, pow_zero, mul_one]
      have e3 : (if e % 2 = 1 then r * b % m else r) * (b * b % m) ^ (e / 2)
          ≡ r * b ^ (e % 2) * (b * b) ^ (e / 2) [MOD m] := e2.mul (e1.pow _)
      have e4 : r * b ^ (e % 2) * (b * b) ^ (e / 2) = r * b ^ e := by
        rw [show b * b = b ^ 2 by ring, ← pow_mul, mul_assoc, ← pow_add]
        congr 2
        omega
      rw [← e4]
      exact e3

/-- C8: both modular exponentiation routines compute `base ^ exp % mod` for
every non-negative base and exponent and every modulus `> 1`; in particular
exponent `0` yields `1`, and the base is reduced modulo `mod` before use
(so `modPowBig base` and `modPowBig (base % mod)` agree). -/
theorem modPow_correct (base exp mod : ℕ) (h : 2 ≤ mod) :
    modPowBig base exp mod = base ^ exp % mod
      ∧ modPow base exp mod = base ^ exp % mod
      ∧ modPowBig base 0 mod = 1
      ∧ modPowBig base exp mod = modPowBig (base % mod) exp mod := by
  have hb : modPowBig base exp mod = base ^ exp % mod := by
    unfold modPowBig
    rw [modPowGo_spec exp (base % mod) exp 1 mod le_rfl h (by omega), one_mul, ← Nat.pow_mod]
  refine ⟨hb, ?_, rfl, ?_⟩
  · unfold modPow
    rw [Nat.add_mod_right, Nat.mod_mod_of_dvd base (dvd_refl mod)]
    exact hb
  · unfold modPowBig
    rw [Nat.mod_mod_of_dvd base (dvd_refl mod)]

/-- Witness for `modPow_correct` at `base = 150`, `exp = 3`, `mod = 143`. -/
theorem modPow_correct_witness :
    2 ≤ 143 ∧ modPowBig 150 3 143 = 150 ^ 3 % 143 ∧ modPow 150 3 143 = 150 ^ 3 % 143
      ∧ modPowBig 150 0 143 = 1 ∧ modPowBig 150 3 143 = modPowBig (150 % 143) 3 143 := by
  obtain ⟨h1, h2, h3, h4⟩ := modPow_correct 150 3 143 (by norm_num)
  exact ⟨by norm_num, h1, h2, h3, h4⟩

/-- The recursion of `egcdBig(a, b)` of `rsa_freq.js` (equally `egcd` of
`rsa_attack.js`): if `b = 0` return `(x, y, g) = (1, 0, a)`, else recurse on
`(b, a % b)` and combine.  The first argument is structural fuel; the caller
passes `fuel = b`, which always suffices since the third argument strictly
decreases.  The triple is `(x, y, g)` with `a·x + b·y = g`. -/
def egcdGo : ℕ → ℕ → ℕ → ℤ × ℤ × ℕ
  | _, a, 0 => (1, 0, a)
  | 0, a, _ + 1 => (1, 0, a)
  | fuel + 1, a, b + 1 =>
    let r := egcdGo fuel (b + 1) (a % (b + 1))
    (r.2.1, r.1 - ((a / (b + 1) : ℕ) : ℤ) * r.2.1, r.2.2)

/-- `egcdBig(a, b)`: extended gcd returning `(x, y, g)`. -/
def egcdBig (a b : ℕ) : ℤ × ℤ × ℕ := egcdGo b a b

lemma egcdGo_spec : ∀ fuel a b : ℕ, b ≤ fuel →
    (egcdGo fuel a b).2.2 = Nat.gcd b a
      ∧ (a : ℤ) * (egcdGo fuel a b).1 + (b : ℤ) * (egcdGo fuel a b).2.1
          = ((egcdGo fuel a b).2.2 : ℤ) := by
  intro fuel
  induction fuel with
  | zero =>
    intro a b hb
    have hb0 : b = 0 := by omega
    subst hb0
    exact ⟨by simp [egcdGo], by simp [egcdGo]⟩
  | succ fuel ih =>
    intro a b hb
    match b with
    | 0 => exact ⟨by simp [egcdGo], by simp [egcdGo]⟩
    | b + 1 =>
      have hrec : a % (b + 1) ≤ fuel := by
        have := Nat.mod_lt a (show 0 < b + 1 by omega)
        omega
      obtain ⟨ihg, ihb⟩ := ih (b + 1) (a % (b + 1)) hrec
      have hunfold : egcdGo (fuel + 1) a (b + 1)
          = ((egcdGo fuel (b + 1) (a % (b + 1))).2.1,
             (egcdGo fuel (b + 1) (a % (b + 1))).1
               - ((a / (b + 1) : ℕ) : ℤ) * (egcdGo fuel (b + 1) (a % (b + 1))).2.1,
             (egcdGo fuel (b + 1) (a % (b + 1))).2.2) := rfl
      constructor
      · rw [hunfold]
        simpa [ihg] using (Nat.gcd_rec (b + 1) a).symm
      · rw [hunfold]
        have hmod : ((a % (b + 1) : ℕ) : ℤ) = (a : ℤ) - ((b + 1 : ℕ) : ℤ) * ((a / (b + 1) : ℕ) : ℤ) := by
          have := Nat.div_add_mod a (b + 1)
          push_cast
          push_cast at this
          linarith
        have := ihb
        rw [hmod] at this
        push_cast
        push_cast at this
        linarith [this]

lemma egcdBig_gcd (a b : ℕ) : (egcdBig a b).2.2 = Nat.gcd a b := by
  rw [egcdBig, (egcdGo_spec b a b le_rfl).1, Nat.gcd_comm]

lemma egcdBig_bezout (a b : ℕ) :
    (a : ℤ) * (egcdBig a b).1 + (b : ℤ) * (egcdBig a b).2.1 = ((egcdBig a b).2.2 : ℤ) :=
  (egcdGo_spec b a b le_rfl).2

/-- `modInvBig(e, φ)` of `rsa_freq.js` (equally `modInv` of `rsa_attack.js`):
throws (`none`) when the extended gcd is not `1`, otherwise returns
`(x % φ + φ) % φ` where `%` is JavaScript's truncated BigInt remainder
(`Int.tmod`). -/
def modInvBig (e φ : ℕ) : Option ℕ :=
  if (egcdBig e φ).2.2 = 1
  then some ((((egcdBig e φ).1.tmod φ) + φ).tmod φ).toNat
  else none

lemma tmod_lower_bound (x : ℤ) (φ : ℕ) (hφ : 0 < φ) : -(φ : ℤ) < x.tmod φ := by
  match x with
  | Int.ofNat m =>
    have h := Int.tmod_nonneg (φ : ℤ) (show (0:ℤ) ≤ Int.ofNat m from Int.ofNat_nonneg m)
    omega
  | Int.negSucc m =>
    have h : (Int.negSucc m).tmod ((φ : ℕ) : ℤ) = -(((m + 1) % φ : ℕ) : ℤ) := rfl
    rw [h]
    have := Nat.mod_lt (m + 1) hφ
    omega

lemma tmod_shift_emod (x : ℤ) (φ : ℕ) (hφ : 0 < φ) :
    ((x.tmod φ) + φ).tmod φ = x % φ := by
  have hlow := tmod_lower_bound x φ hφ
  have hw : (0 : ℤ) ≤ x.tmod φ + φ := by omega
  rw [Int.tmod_eq_emod hw (by positivity)]
  have h1 : (x.tmod φ + (φ : ℤ)) % φ = x.tmod φ % φ := by
    have h2 := Int.add_mul_emod_self_left (x.tmod φ) (φ : ℤ) 1
    rw [mul_one] at h2
    exact h2
  rw [h1]
  have hdvd : ((φ : ℤ)) ∣ (x - x.tmod φ) := by
    refine ⟨x.tdiv φ, ?_⟩
    have := Int.tdiv_add_tmod x φ
    linarith
  have hm : x.tmod φ ≡ x [ZMOD (φ : ℤ)] := (Int.modEq_iff_dvd.mpr hdvd)
  exact hm

lemma modInvBig_some_spec (e φ d : ℕ) (hφ : 0 < φ) (h : modInvBig e φ = some d) :
    d < φ ∧ e * d ≡ 1 [MOD φ] := by
  unfold modInvBig at h
  by_cases hg : (egcdBig e φ).2.2 = 1
  · rw [if_pos hg, Option.some_inj] at h
    rw [tmod_shift_emod _ φ hφ] at h
    set x : ℤ := (egcdBig e φ).1 with hx
    have hφZ : ((φ : ℤ)) ≠ 0 := by positivity
    have hz0 : (0 : ℤ) ≤ x % φ := Int.emod_nonneg x hφZ
    have hzlt : x % φ < φ := Int.emod_lt_of_pos x (by positivity)
    have hdZ : (d : ℤ) = x % φ := by
      rw [← h, Int.toNat_of_nonneg hz0]
    constructor
    · omega
    · rw [Nat.modEq_iff_dvd]
      have hbez := egcdBig_bezout e φ
      rw [hg] at hbez
      have h1 : ((φ : ℤ)) ∣ 1 - (e : ℤ) * x := by
        refine ⟨(egcdBig e φ).2.1, ?_⟩
        push_cast at hbez
        linarith
      have h2 : ((φ : ℤ)) ∣ x - d := by
        rw [hdZ, Int.emod_def]
        exact ⟨x / φ, by ring⟩
      have : ((φ : ℤ)) ∣ (1 - (e : ℤ) * x) + (e : ℤ) * (x - d) := dvd_add h1 (Dvd.dvd.mul_left h2 _)
      have heq : (1 - (e : ℤ) * x) + (e : ℤ) * (x - d) = 1 - (e : ℤ) * d := by ring
      rw [heq] at this
      push_cast
      exact this
  · rw [if_neg hg] at h
    cases h

lemma modInvBig_none_iff (e φ : ℕ) : modInvBig e φ = none ↔ Nat.gcd e φ ≠ 1 := by
  unfold modInvBig
  rw [egcdBig_gcd]
  by_cases hg : Nat.gcd e φ = 1
  · simp [hg]
  · simp [hg]

/-! ## The RSA-per-letter permutation cipher of `rsa_freq.js` -/

/-- The 26 residues `m^e mod n` (`n = p·q`) computed by
`buildPlainToNumMap`, in alphabet order `m = 0, …, 25`. -/
def rsaResidues (p q e : ℕ) : List ℕ :=
  (List.range 26).map fun m => modPowBig m e (p * q)

/-- `buildPlainToNumMap(p, q, e)`: collect the distinct residues in first
occurrence order (`new Set`), throw (`none`) unless there are exactly 26 of
them, and sort them ascending.  The letter-to-residue map itself is
`fun m => modPowBig m e (p*q)`; the returned list is the sorted `uniq`. -/
def buildPlainToNumMap (p q e : ℕ) : Option (List ℕ) :=
  if (rsaResidues p q e).dedup.length = 26
  then some (List.insertionSort (· ≤ ·) (rsaResidues p q e).dedup)
  else none

lemma dedup_length_iff (l : List ℕ) : l.dedup.length = l.length ↔ l.Nodup := by
  constructor
  · intro h
    have hsub : l.dedup.Sublist l := l.dedup_sublist
    have : l.dedup = l := hsub.eq_of_length h
    rw [← this]
    exact l.nodup_dedup
  · intro h
    rw [List.dedup_eq_self.mpr h]

lemma buildPlainToNumMap_none_iff (p q e : ℕ) :
    buildPlainToNumMap p q e = none ↔ ¬ (rsaResidues p q e).Nodup := by
  have hlen : (rsaResidues p q e).length = 26 := by
    simp [rsaResidues]
  have key : (rsaResidues p q e).dedup.length = 26 ↔ (rsaResidues p q e).Nodup := by
    rw [← hlen]
    exact dedup_length_iff _
  unfold buildPlainToNumMap
  by_cases hd : (rsaResidues p q e).dedup.length = 26
  · rw [if_pos hd]
    constructor
    · intro h
      cases h
    · intro h
      exact absurd (key.mp hd) h
  · rw [if_neg hd]
    constructor
    · intro _
      exact fun hnd => hd (key.mpr hnd)
    · intro _
      rfl

/-- C5: key validation fails exactly on the two configuration faults.
`modInvBig(e, φ)` throws if and only if `gcd(e, φ) ≠ 1`, and otherwise
returns the inverse of `e` modulo `φ` lying in `[0, φ)`;
`buildPlainToNumMap(p, q, e)` throws if and only if the 26 residues
`m^e mod p·q` (`m = 0, …, 25`) are not pairwise distinct, and otherwise
returns the residue table. -/
theorem keyValidation_spec (e φ p q e' : ℕ) (hφ : 0 < φ) :
    (modInvBig e φ = none ↔ Nat.gcd e φ ≠ 1)
      ∧ (∀ d, modInvBig e φ = some d → d < φ ∧ e * d ≡ 1 [MOD φ])
      ∧ (buildPlainToNumMap p q e' = none ↔ ¬ (rsaResidues p q e').Nodup) :=
  ⟨modInvBig_none_iff e φ,
   fun d h => modInvBig_some_spec e φ d hφ h,
   buildPlainToNumMap_none_iff p q e'⟩

set_option maxHeartbeats 2000000 in
/-- Witness for `keyValidation_spec` at the demo key `p = 13`, `q = 11`,
`e = 7`, `φ = 120`: the inverse is `103`, it is reduced and correct, and the
residue table is built (all 26 residues distinct). -/
theorem keyValidation_spec_witness :
    0 < 120 ∧ modInvBig 7 120 = some 103 ∧ 103 < 120 ∧ 7 * 103 ≡ 1 [MOD 120]
      ∧ buildPlainToNumMap 13 11 7 ≠ none ∧ (rsaResidues 13 11 7).Nodup := by
  have h := (keyValidation_spec 7 120 13 11 7 (by norm_num)).2.1 103 (by decide)
  refine ⟨by norm_num, by decide, h.1, h.2, ?_, by decide⟩
  have hn := ((keyValidation_spec 7 120 13 11 7 (by norm_num)).2.2)
  intro hcontra
  exact (hn.mp hcontra) (by decide)

/-- The ascending list of the 26 distinct residues (`uniq` after
`uniq.sort(...)` in `rsa_freq.js`). -/
def uniqResidues (p q e : ℕ) : List ℕ :=
  List.insertionSort (· ≤ ·) (rsaResidues p q e).dedup

/-- `plainToSym`: the letter `m` is encrypted to the rank of its residue
`m^e mod n` in the sorted residue list (`numToSym` after `buildSymbolMaps`). -/
def plainToSym (p q e m : ℕ) : ℕ :=
  (uniqResidues p q e).indexOf (modPowBig m e (p * q))

/-- `symToNum`: a cipher symbol (a rank) is mapped back to its residue. -/
def symToNum (p q e s : ℕ) : ℕ := (uniqResidues p q e).getD s 0

/-- Encryption of `rsa_freq.js` `main`: map each plaintext letter through
`plainToSym`. -/
def encryptAZ (p q e : ℕ) (s : List ℕ) : List ℕ := s.map (plainToSym p q e)

/-- Decryption of `rsa_freq.js` `main`: map each symbol to its residue and
raise it to the private exponent `d` modulo `n`, recovering a letter index. -/
def decryptAZ (p q e d : ℕ) (syms : List ℕ) : List ℕ :=
  syms.map fun sy => modPowBig (symToNum p q e sy) d (p * q)

lemma fermat_pow (p : ℕ) (hp : p.Prime) (m k : ℕ) :
    m ^ ((p - 1) * k + 1) ≡ m [MOD p] := by
  by_cases hdvd : p ∣ m
  · have h0 : m ≡ 0 [MOD p] := (Nat.modEq_zero_iff_dvd).mpr hdvd
    calc m ^ ((p - 1) * k + 1)
        = m ^ ((p - 1) * k) * m := by rw [pow_succ]
      _ ≡ m ^ ((p - 1) * k) * 0 [MOD p] := h0.mul_left _
      _ = 0 := by ring
      _ ≡ m [MOD p] := h0.symm
  · have hpc : Nat.Coprime p m := (Nat.Prime.coprime_iff_not_dvd hp).mpr hdvd
    have h1 : m ^ p.totient ≡ 1 [MOD p] := Nat.ModEq.pow_totient hpc.symm
    rw [Nat.totient_prime hp] at h1
    calc m ^ ((p - 1) * k + 1)
        = (m ^ (p - 1)) ^ k * m := by rw [← pow_mul, pow_succ]
      _ ≡ 1 ^ k * m [MOD p] := ((h1.pow k).mul_right m)
      _ = m := by ring

lemma phi_two_le (p q : ℕ) (hp : p.Prime) (hq : q.Prime) (hpq : p ≠ q) :
    2 ≤ (p - 1) * (q - 1) := by
  have hp2 := hp.two_le
  have hq2 := hq.two_le
  rcases Nat.lt_or_ge p 3 with h | h
  · have hq3 : 3 ≤ q := by omega
    have hmul := Nat.mul_le_mul (show 1 ≤ p - 1 by omega) (show 2 ≤ q - 1 by omega)
    exact le_trans (by norm_num) hmul
  · have hmul := Nat.mul_le_mul (show 2 ≤ p - 1 by omega) (show 1 ≤ q - 1 by omega)
    exact le_trans (by norm_num) hmul

/-- The textbook RSA identity `m^(e·d) ≡ m (mod p·q)` for distinct primes
`p, q` and `e·d ≡ 1 (mod (p−1)(q−1))`, for **every** message `m`. -/
lemma rsa_core (p q e d : ℕ) (hp : p.Prime) (hq : q.Prime) (hpq : p ≠ q)
    (hed : e * d ≡ 1 [MOD (p - 1) * (q - 1)]) (m : ℕ) :
    m ^ (e * d) ≡ m [MOD p * q] := by
  have hφ2 : 2 ≤ (p - 1) * (q - 1) := phi_two_le p q hp hq hpq
  have hone : 1 % ((p - 1) * (q - 1)) = 1 := Nat.mod_eq_of_lt (by omega)
  have hed1 : e * d % ((p - 1) * (q - 1)) = 1 := by
    have h := hed
    unfold Nat.ModEq at h
    rwa [hone] at h
  set t := e * d / ((p - 1) * (q - 1)) with ht
  have hdecomp : e * d = (p - 1) * (q - 1) * t + 1 := by
    conv_lhs => rw [← Nat.div_add_mod (e * d) ((p - 1) * (q - 1))]
    rw [hed1]
  have hmp : m ^ (e * d) ≡ m [MOD p] := by
    have hx : e * d = (p - 1) * ((q - 1) * t) + 1 := by
      conv_lhs => rw [hdecomp]
      ring
    rw [hx]
    exact fermat_pow p hp m _
  have hmq : m ^ (e * d) ≡ m [MOD q] := by
    have hx : e * d = (q - 1) * ((p - 1) * t) + 1 := by
      conv_lhs => rw [hdecomp]
      ring
    rw [hx]
    exact fermat_pow q hq m _
  have hco : Nat.Coprime p q := (Nat.coprime_primes hp hq).mpr hpq
  exact (Nat.modEq_and_modEq_iff_modEq_mul hco).mp ⟨hmp, hmq⟩

lemma modPowBig_lt (base exp mod : ℕ) (h : 2 ≤ mod) : modPowBig base exp mod < mod := by
  rw [(modPow_correct base exp mod h).1]
  exact Nat.mod_lt _ (by omega)

lemma n_ge_26 (p q e : ℕ) (h2 : 2 ≤ p * q) (hnd : (rsaResidues p q e).Nodup) :
    26 ≤ p * q := by
  have hsub : (rsaResidues p q e).toFinset ⊆ Finset.range (p * q) := by
    intro x hx
    rw [List.mem_toFinset] at hx
    rw [Finset.mem_range]
    obtain ⟨m, _, hm⟩ := List.mem_map.mp hx
    rw [← hm]
    exact modPowBig_lt m e (p * q) h2
  have hcard : (rsaResidues p q e).toFinset.card = 26 := by
    rw [List.toFinset_card_of_nodup hnd]
    simp [rsaResidues]
  have := Finset.card_le_card hsub
  rw [hcard, Finset.card_range] at this
  exact this

lemma uniqResidues_perm (p q e : ℕ) (hnd : (rsaResidues p q e).Nodup) :
    (uniqResidues p q e).Perm (rsaResidues p q e) := by
  unfold uniqResidues
  rw [List.dedup_eq_self.mpr hnd]
  exact List.perm_insertionSort _ _

/-- C1: for every valid key — `p ≠ q` prime, the 26 residues `m^e mod p·q`
pairwise distinct, and `d = e⁻¹ mod φ` obtained from `modInvBig` — encrypting
any string of letters `A`–`Z` through the rank-relabelled letter→symbol
permutation and then decrypting the symbol sequence with `d` by modular
exponentiation returns the original string unchanged. -/
theorem rsa_roundtrip (p q e d : ℕ) (hp : p.Prime) (hq : q.Prime) (hpq : p ≠ q)
    (hnd : (rsaResidues p q e).Nodup)
    (hd : modInvBig e ((p - 1) * (q - 1)) = some d)
    (s : List ℕ) (hs : ∀ x ∈ s, x < 26) :
    decryptAZ p q e d (encryptAZ p q e s) = s := by
  have hφ2 : 2 ≤ (p - 1) * (q - 1) := phi_two_le p q hp hq hpq
  have hed : e * d ≡ 1 [MOD (p - 1) * (q - 1)] :=
    (modInvBig_some_spec e ((p - 1) * (q - 1)) d (by omega) hd).2
  have h2 : 2 ≤ p * q := le_trans (by norm_num) (Nat.mul_le_mul hp.two_le hq.two_le)
  have h26 : 26 ≤ p * q := n_ge_26 p q e h2 hnd
  have hperm := uniqResidues_perm p q e hnd
  unfold decryptAZ encryptAZ
  rw [List.map_map]
  have hpt : ∀ m ∈ s, modPowBig (symToNum p q e (plainToSym p q e m)) d (p * q) = m := by
    intro m hm
    have hm26 : m < 26 := hs m hm
    set r := modPowBig m e (p * q) with hr
    have hrmem : r ∈ uniqResidues p q e := by
      rw [hperm.mem_iff]
      exact List.mem_map.mpr ⟨m, List.mem_range.mpr hm26, rfl⟩
    have hidx : (uniqResidues p q e).indexOf r < (uniqResidues p q e).length :=
      List.indexOf_lt_length.mpr hrmem
    have hsym : symToNum p q e (plainToSym p q e m) = r := by
      unfold symToNum plainToSym
      rw [← hr, List.getD_eq_getElem _ _ hidx]
      exact List.getElem_indexOf hidx
    rw [hsym, hr]
    rw [(modPow_correct m e (p * q) (by omega)).1]
    rw [(modPow_correct _ d (p * q) (by omega)).1]
    rw [← Nat.pow_mod, ← pow_mul]
    have := rsa_core p q e d hp hq hpq hed m
    unfold Nat.ModEq at this
    rw [this, Nat.mod_eq_of_lt (by omega)]
  calc s.map (fun m => modPowBig (symToNum p q e (plainToSym p q e m)) d (p * q))
      = s.map id := List.map_congr_left fun m hm => hpt m hm
    _ = s := List.map_id s

set_option maxHeartbeats 2000000 in
/-- Witness for `rsa_roundtrip` at the demo key `p = 13`, `q = 11`, `e = 7`
(`d = 103`) on the string `"HELLO"` (`[7, 4, 11, 11, 14]`). -/
theorem rsa_roundtrip_witness :
    Nat.Prime 13 ∧ Nat.Prime 11 ∧ (13 : ℕ) ≠ 11 ∧ (rsaResidues 13 11 7).Nodup
      ∧ modInvBig 7 ((13 - 1) * (11 - 1)) = some 103
      ∧ (∀ x ∈ [7, 4, 11, 11, 14], x < 26)
      ∧ decryptAZ 13 11 7 103 (encryptAZ 13 11 7 [7, 4, 11, 11, 14]) = [7, 4, 11, 11, 14] := by
  refine ⟨by norm_num, by norm_num, by norm_num, by decide, by decide, by decide, ?_⟩
  exact rsa_roundtrip 13 11 7 103 (by norm_num) (by norm_num) (by norm_num)
    (by decide) (by decide) [7, 4, 11, 11, 14] (by decide)

/-! ## The rank-alignment frequency attack of `rsa_freq.js` -/

/-- `countFreqAZ` of `rsa_freq.js`: the count of the letter with index `i`. -/
def countFreqAZ (t : List ℕ) (i : ℕ) : ℕ := t.count i

/-- The total order induced by the JavaScript comparator
`(f[b] - f[a]) || (a - b)` of `orderByFreq`: descending frequency, ties
broken by ascending letter index. -/
def freqOrder (t : List ℕ) (a b : ℕ) : Prop :=
  countFreqAZ t b < countFreqAZ t a ∨ (countFreqAZ t a = countFreqAZ t b ∧ a ≤ b)

instance freqOrderDecidable (t : List ℕ) : DecidableRel (freqOrder t) := fun a b =>
  inferInstanceAs (Decidable (countFreqAZ t b < countFreqAZ t a
    ∨ (countFreqAZ t a = countFreqAZ t b ∧ a ≤ b)))

instance freqOrderTotal (t : List ℕ) : IsTotal ℕ (freqOrder t) :=
  ⟨fun a b => by unfold freqOrder; omega⟩

instance freqOrderTrans (t : List ℕ) : IsTrans ℕ (freqOrder t) :=
  ⟨fun a b c => by unfold freqOrder countFreqAZ; omega⟩

instance freqOrderAntisymm (t : List ℕ) : IsAntisymm ℕ (freqOrder t) :=
  ⟨fun a b => by unfold freqOrder; omega⟩

/-- `orderByFreq` of `rsa_freq.js`: the 26 letters sorted by the comparator
above.  Since the comparator is a total order, JavaScript's `sort` computes
the unique sorted arrangement, here given by insertion sort. -/
def orderByFreq (t : List ℕ) : List ℕ :=
  List.insertionSort (freqOrder t) (List.range 26)

/-- `mapCipherToPlainByRank` of `rsa_freq.js` `main`: the `Map` built by
pairing same-rank entries `cipherOrder[i] → srcOrder[i]`, `i = 0, …, 25`,
as an association list in insertion order. -/
def mapCipherToPlainByRank (src cipher : List ℕ) : List (ℕ × ℕ) :=
  (orderByFreq cipher).zip (orderByFreq src)

lemma zip_lookup_of_nodup :
    ∀ (xs ys : List ℕ), xs.Nodup → ∀ i, i < xs.length → i < ys.length →
      (xs.zip ys).lookup (xs.getD i 0) = some (ys.getD i 0) := by
  intro xs
  induction xs with
  | nil => intro ys _ i hi _; cases hi
  | cons x xs ih =>
    intro ys hnd i hi hiy
    match ys with
    | [] => cases hiy
    | y :: ys =>
      match i with
      | 0 => simp [List.lookup]
      | i + 1 =>
        have hx : x ∉ xs := (List.nodup_cons.mp hnd).1
        have hkey : xs.getD i 0 ∈ xs := by
          rw [List.getD_eq_getElem _ _ (by simpa using Nat.lt_of_succ_lt_succ hi)]
          exact List.getElem_mem _
        have hne : (xs.getD i 0) ≠ x := fun h => hx (h ▸ hkey)
        have hbeq : ((xs.getD i 0) == x) = false := beq_eq_false_iff_ne.mpr hne
        simp only [List.zip_cons_cons, List.getD_cons_succ, List.lookup, hbeq]
        exact ih ys (List.nodup_cons.mp hnd).2 i (Nat.lt_of_succ_lt_succ hi)
          (Nat.lt_of_succ_lt_succ hiy)

/-- C4: the rank-alignment attack is deterministic and uses exactly the
descending-frequency order with ascending-index tie-break.  `orderByFreq`
returns a permutation of the 26 letters sorted by `freqOrder` (descending
frequency, ties by ascending index), any such sorted permutation is *unique*
(so any correct sort — in particular two runs on identical input — produces
the identical ranking and hence an identical mapping), and the mapping pairs
same-rank entries: the `i`-th cipher letter looks up to the `i`-th source
letter. -/
theorem orderByFreq_rank_attack (src cipher : List ℕ) :
    ((orderByFreq src).Perm (List.range 26)
        ∧ List.Sorted (freqOrder src) (orderByFreq src))
      ∧ (∀ l : List ℕ, l.Perm (List.range 26) → List.Sorted (freqOrder src) l
          → l = orderByFreq src)
      ∧ (∀ i, i < 26 →
          (mapCipherToPlainByRank src cipher).lookup ((orderByFreq cipher).getD i 0)
            = some ((orderByFreq src).getD i 0)) := by
  have hperm : (orderByFreq src).Perm (List.range 26) :=
    List.perm_insertionSort (freqOrder src) (List.range 26)
  have hsorted : List.Sorted (freqOrder src) (orderByFreq src) :=
    List.sorted_insertionSort (freqOrder src) (List.range 26)
  refine ⟨⟨hperm, hsorted⟩, ?_, ?_⟩
  · intro l hl hs
    exact List.eq_of_perm_of_sorted (hl.trans hperm.symm) hs hsorted
  · intro i hi
    have hndc : (orderByFreq cipher).Nodup :=
      (List.perm_insertionSort (freqOrder cipher) (List.range 26)).nodup_iff.mpr
        (List.nodup_range 26)
    have hlenc : (orderByFreq cipher).length = 26 :=
      (List.perm_insertionSort (freqOrder cipher) (List.range 26)).length_eq.trans
        (List.length_range 26)
    have hlens : (orderByFreq src).length = 26 :=
      (List.perm_insertionSort (freqOrder src) (List.range 26)).length_eq.trans
        (List.length_range 26)
    exact zip_lookup_of_nodup (orderByFreq cipher) (orderByFreq src) hndc i
      (by omega) (by omega)

/-- Witness for `orderByFreq_rank_attack` on the source text `[0, 0, 1]`
(`"AAB"`) and ciphertext `[25]` (`"Z"`): the ranking of the source text is
`0, 1, 2, …, 25` itself, uniqueness applies to it, and rank `0` of the
cipher ranking maps to rank `0` of the source ranking. -/
theorem orderByFreq_rank_attack_witness :
    (List.range 26).Perm (List.range 26)
      ∧ List.Sorted (freqOrder [0, 0, 1]) (List.range 26)
      ∧ List.range 26 = orderByFreq [0, 0, 1]
      ∧ 0 < 26
      ∧ (mapCipherToPlainByRank [0, 0, 1] [25]).lookup ((orderByFreq [25]).getD 0 0)
          = some ((orderByFreq [0, 0, 1]).getD 0 0) := by
  refine ⟨List.Perm.refl _, by decide, ?_, by norm_num, ?_⟩
  · exact (orderByFreq_rank_attack [0, 0, 1] [25]).2.1 (List.range 26)
      (List.Perm.refl _) (by decide)
  · exact (orderByFreq_rank_attack [0, 0, 1] [25]).2.2 0 (by norm_num)

/-! ## The hill-climbing attack of `rsa_attack.js`

The 27-symbol alphabet `A`–`Z` plus space is embedded as the indices
`0, …, 26` (`CHAR2INT`/`INT2CHAR`); the character `'?'` is embedded as `27`.
JavaScript `Map`s keyed by the cipher-symbol decimal strings are embedded as
association lists keyed by the residues themselves. -/

/-- JavaScript `Map.set` on an association list: overwrite the entry of an
existing key in place, otherwise append the new entry. -/
def mset (m : List (ℕ × ℕ)) (k v : ℕ) : List (ℕ × ℕ) :=
  if (m.lookup k).isSome
  then m.map (fun p => if p.1 = k then (k, v) else p)
  else m ++ [(k, v)]

/-- The expected cipher symbols `i^e mod N` for the 27 alphabet indices
(computed identically in `freqMapping` and at the top of `hillClimb`). -/
def expectedSyms (e N : ℕ) : List ℕ := (List.range 27).map fun i => modPow i e N

/-- `applyMappingToCipher(cipherNums, mapping)`: decode each element of the
cipher array; `null` (`none`) and symbols absent from the mapping decode to
`'?'` (`27`). -/
def applyMappingToCipher (cipherNums : List (Option ℕ)) (mapping : List (ℕ × ℕ)) : List ℕ :=
  cipherNums.map fun c => match c with
    | none => 27
    | some c => (mapping.lookup c).getD 27

/-- `scoreMapping(mapping, cipherNums, bigramModel)`: the sum of the bigram
scores of all adjacent decoded pairs whose two characters both lie in the
27-symbol alphabet.  The bigram model is the function `B`. -/
def scoreMapping (mapping : List (ℕ × ℕ)) (cipherNums : List (Option ℕ))
    (B : ℕ → ℕ → ℚ) : ℚ :=
  let decoded := applyMappingToCipher cipherNums mapping
  ((decoded.zip decoded.tail).map fun ab =>
    if ab.1 < 27 ∧ ab.2 < 27 then B ab.1 ab.2 else 0).sum

/-- One step of the seed padding at the top of `hillClimb`: a symbol already
in the mapping is skipped; otherwise it is assigned `remainingLetters.pop()`
(the last remaining unused letter), or letter `0` (`'A'`) if none remain. -/
def padStep (st : List (ℕ × ℕ) × List ℕ) (sym : ℕ) : List (ℕ × ℕ) × List ℕ :=
  if (st.1.lookup sym).isSome then st
  else (mset st.1 sym (st.2.getLast?.getD 0), st.2.dropLast)

/-- The seed padding of `hillClimb`: `remainingLetters` is the list of
alphabet letters not yet assigned, and every expected symbol missing from
the mapping receives one (popped from the end). -/
def padMapping (mapping : List (ℕ × ℕ)) (syms : List ℕ) : List (ℕ × ℕ) :=
  (syms.foldl padStep
    (mapping,
     (List.range 27).filter (fun c => !((mapping.map Prod.snd).contains c)))).1

/-- The mapping proposed by one `hillClimb` iteration drawing positions
`(i, j)`: the letters assigned to `syms[i]` and `syms[j]` are exchanged. -/
def proposeSwap (syms : List ℕ) (m : List (ℕ × ℕ)) (ij : Fin 27 × Fin 27) :
    List (ℕ × ℕ) :=
  mset (mset m (syms.getD ij.1 0) ((m.lookup (syms.getD ij.2 0)).getD 0))
    (syms.getD ij.2 0) ((m.lookup (syms.getD ij.1 0)).getD 0)

/-- One `hillClimb` iteration: skip when `i = j`; otherwise swap, rescore the
full decoding, keep the swap when the new score strictly exceeds `bestScore`,
and otherwise swap back.  (On every reachable state the mapping contains all
expected symbols, so the `getD 0` defaults of the lookups are never used.) -/
def hillStep (cipherNums : List (Option ℕ)) (B : ℕ → ℕ → ℚ) (syms : List ℕ)
    (st : List (ℕ × ℕ) × ℚ) (ij : Fin 27 × Fin 27) : List (ℕ × ℕ) × ℚ :=
  if ij.1 = ij.2 then st
  else
    let a := syms.getD ij.1 0
    let b := syms.getD ij.2 0
    let ma := (st.1.lookup a).getD 0
    let mb := (st.1.lookup b).getD 0
    let m1 := proposeSwap syms st.1 ij
    let newScore := scoreMapping m1 cipherNums B
    if st.2 < newScore then (m1, newScore)
    else (mset (mset m1 a ma) b mb, st.2)

/-- `hillClimb(mapping, cipherNums, bigramModel, rsaPub, iterations)` as a
state transformer.  The random draws `(i, j)` (always in `[0, 27)` since
`Math.random() < 1`) are supplied as an explicit list, one per iteration.
The state is the pair (mapping, bestScore); in the JavaScript the mapping
component lives in the caller's `mapping` object, which `hillClimb` mutates
in place. -/
def hillClimbRun (mapping : List (ℕ × ℕ)) (cipherNums : List (Option ℕ))
    (B : ℕ → ℕ → ℚ) (e N : ℕ) (rand : List (Fin 27 × Fin 27)) :
    List (ℕ × ℕ) × ℚ :=
  let syms := expectedSyms e N
  let padded := padMapping mapping syms
  rand.foldl (hillStep cipherNums B syms) (padded, scoreMapping padded cipherNums B)

/-- The value the JavaScript `hillClimb` returns: the final `bestScore`. -/
def hillClimb (mapping : List (ℕ × ℕ)) (cipherNums : List (Option ℕ))
    (B : ℕ → ℕ → ℚ) (e N : ℕ) (rand : List (Fin 27 × Fin 27)) : ℚ :=
  (hillClimbRun mapping cipherNums B e N rand).2

/-- `decryptTextRSA(cipherArr, priv)`: `null` entries decode to `'?'`; other
entries decode to `INT2CHAR[c^d mod N]`, which is a character only when the
result is an alphabet index (`< 27`) — otherwise `INT2CHAR[...]` is
`undefined` and contributes no character to the joined string. -/
def decryptTextRSA : List (Option ℕ) → ℕ → ℕ → List ℕ
  | [], _, _ => []
  | none :: rest, d, N => 27 :: decryptTextRSA rest d N
  | some c :: rest, d, N =>
    if modPow c d N < 27 then modPow c d N :: decryptTextRSA rest d N
    else decryptTextRSA rest d N

/-! ### Association-list lemmas for the `Map` embedding -/

lemma lookup_isSome_iff (m : List (ℕ × ℕ)) (k : ℕ) :
    (m.lookup k).isSome ↔ k ∈ m.map Prod.fst := by
  induction m with
  | nil => simp [List.lookup]
  | cons p m ih =>
    by_cases h : k = p.1
    · simp [List.lookup, h]
    · have hb : (k == p.1) = false := beq_eq_false_iff_ne.mpr h
      simp [List.lookup, hb, ih, h]

lemma lookup_eq_none_iff (m : List (ℕ × ℕ)) (k : ℕ) :
    m.lookup k = none ↔ k ∉ m.map Prod.fst := by
  rw [← lookup_isSome_iff]
  cases m.lookup k <;> simp

lemma lookup_cons_ite (k1 v1 : ℕ) (m : List (ℕ × ℕ)) (k : ℕ) :
    (((k1, v1) :: m).lookup k) = if k = k1 then some v1 else m.lookup k := by
  rw [List.lookup_cons]
  by_cases h : k = k1
  · simp [h]
  · simp [beq_false_of_ne h, h]

lemma lookup_mset_self (m : List (ℕ × ℕ)) (k v : ℕ) :
    (mset m k v).lookup k = some v := by
  unfold mset
  by_cases hp : (m.lookup k).isSome
  · rw [if_pos hp]
    revert hp
    induction m with
    | nil => intro hp; simp at hp
    | cons p m ih =>
      obtain ⟨k1, v1⟩ := p
      intro hp
      by_cases h : k1 = k
      · simp only [List.map_cons, if_pos (show (k1, v1).1 = k from h)]
        rw [lookup_cons_ite, if_pos rfl]
      · simp only [List.map_cons, if_neg (show ¬ (k1, v1).1 = k from h)]
        rw [lookup_cons_ite, if_neg (fun hh => h hh.symm)]
        rw [lookup_cons_ite, if_neg (fun hh => h hh.symm)] at hp
        exact ih hp
  · rw [if_neg hp]
    have hnone : m.lookup k = none := Option.not_isSome_iff_eq_none.mp hp
    clear hp
    revert hnone
    induction m with
    | nil =>
      intro _
      simp only [List.nil_append]
      rw [lookup_cons_ite, if_pos rfl]
    | cons p m ih =>
      obtain ⟨k1, v1⟩ := p
      intro hnone
      rw [lookup_cons_ite] at hnone
      by_cases h : k = k1
      · rw [if_pos h] at hnone
        cases hnone
      · rw [if_neg h] at hnone
        simp only [List.cons_append]
        rw [lookup_cons_ite, if_neg h]
        exact ih hnone

lemma lookup_mset_other (m : List (ℕ × ℕ)) (k v k' : ℕ) (h : k' ≠ k) :
    (mset m k v).lookup k' = m.lookup k' := by
  unfold mset
  by_cases hp : (m.lookup k).isSome
  · rw [if_pos hp]
    clear hp
    induction m with
    | nil => simp
    | cons p m ih =>
      obtain ⟨k1, v1⟩ := p
      by_cases h1 : k1 = k
      · simp only [List.map_cons, if_pos (show (k1, v1).1 = k from h1)]
        rw [lookup_cons_ite, lookup_cons_ite, if_neg h, if_neg (h1 ▸ h)]
        exact ih
      · simp only [List.map_cons, if_neg (show ¬ (k1, v1).1 = k from h1)]
        rw [lookup_cons_ite, lookup_cons_ite]
        by_cases h2 : k' = k1
        · rw [if_pos h2, if_pos h2]
        · rw [if_neg h2, if_neg h2]
          exact ih
  · rw [if_neg hp]
    clear hp
    induction m with
    | nil =>
      simp only [List.nil_append, List.lookup_nil]
      rw [lookup_cons_ite, if_neg h]
      rfl
    | cons p m ih =>
      obtain ⟨k1, v1⟩ := p
      simp only [List.cons_append]
      rw [lookup_cons_ite, lookup_cons_ite]
      by_cases h2 : k' = k1
      · rw [if_pos h2, if_pos h2]
      · rw [if_neg h2, if_neg h2]
        exact ih

lemma mset_map_fst_present (m : List (ℕ × ℕ)) (k v : ℕ) (hp : (m.lookup k).isSome) :
    (mset m k v).map Prod.fst = m.map Prod.fst := by
  unfold mset
  rw [if_pos hp, List.map_map]
  apply List.map_congr_left
  intro p _
  by_cases h : p.1 = k
  · simp [Function.comp, h]
  · simp [Function.comp, h]

lemma mset_map_fst_absent (m : List (ℕ × ℕ)) (k v : ℕ) (hp : ¬ (m.lookup k).isSome) :
    (mset m k v).map Prod.fst = m.map Prod.fst ++ [k] := by
  unfold mset
  rw [if_neg hp, List.map_append]
  rfl

lemma mset_map_snd_absent (m : List (ℕ × ℕ)) (k v : ℕ) (hp : ¬ (m.lookup k).isSome) :
    (mset m k v).map Prod.snd = m.map Prod.snd ++ [v] := by
  unfold mset
  rw [if_neg hp, List.map_append]
  rfl

lemma mset_keys_nodup (m : List (ℕ × ℕ)) (k v : ℕ)
    (hnd : (m.map Prod.fst).Nodup) : ((mset m k v).map Prod.fst).Nodup := by
  by_cases hp : (m.lookup k).isSome
  · rw [mset_map_fst_present m k v hp]
    exact hnd
  · rw [mset_map_fst_absent m k v hp]
    have hk : k ∉ m.map Prod.fst := by
      rw [← lookup_isSome_iff]
      simpa using hp
    simp [List.nodup_append, hnd, hk]

lemma lookup_mset_isSome (m : List (ℕ × ℕ)) (k v s : ℕ)
    (h : (m.lookup s).isSome) : ((mset m k v).lookup s).isSome := by
  by_cases hs : s = k
  · subst hs
    rw [lookup_mset_self]
    rfl
  · rw [lookup_mset_other m k v s hs]
    exact h

lemma lookup_of_mem_nodup (m : List (ℕ × ℕ)) (hnd : (m.map Prod.fst).Nodup)
    (p : ℕ × ℕ) (hp : p ∈ m) : m.lookup p.1 = some p.2 := by
  induction m with
  | nil => cases hp
  | cons q m ih =>
    obtain ⟨k1, v1⟩ := q
    rcases List.mem_cons.mp hp with hh | hh
    · subst hh
      rw [lookup_cons_ite, if_pos rfl]
    · rw [List.map_cons] at hnd
      have hk1 : k1 ∉ m.map Prod.fst := (List.nodup_cons.mp hnd).1
      have hne : p.1 ≠ k1 := by
        intro hcontra
        apply hk1
        rw [← hcontra]
        exact List.mem_map.mpr ⟨p, hh, rfl⟩
      rw [lookup_cons_ite, if_neg hne]
      exact ih (List.nodup_cons.mp hnd).2 hh

lemma mset_eq_map (m : List (ℕ × ℕ)) (k v : ℕ) (hp : (m.lookup k).isSome) :
    mset m k v = m.map (fun p => if p.1 = k then (k, v) else p) := by
  unfold mset
  rw [if_pos hp]

/-- Swapping two assigned letters and swapping them back restores the
mapping exactly (keys unique, both keys present). -/
lemma mset_restore (m : List (ℕ × ℕ)) (a b ma mb : ℕ)
    (hnd : (m.map Prod.fst).Nodup)
    (ha : m.lookup a = some ma) (hb : m.lookup b = some mb) :
    mset (mset (mset (mset m a mb) b ma) a ma) b mb = m := by
  have h1 : (m.lookup a).isSome := by rw [ha]; rfl
  have h2 : ((mset m a mb).lookup b).isSome := by
    by_cases hab : b = a
    · subst hab; rw [lookup_mset_self]; rfl
    · rw [lookup_mset_other m a mb b hab, hb]; rfl
  have h3 : ((mset (mset m a mb) b ma).lookup a).isSome := by
    by_cases hab : a = b
    · subst hab; rw [lookup_mset_self]; rfl
    · rw [lookup_mset_other _ b ma a hab, lookup_mset_self]; rfl
  have h4 : ((mset (mset (mset m a mb) b ma) a ma).lookup b).isSome := by
    by_cases hab : b = a
    · subst hab; rw [lookup_mset_self]; rfl
    · rw [lookup_mset_other _ a ma b hab, lookup_mset_self]; rfl
  rw [mset_eq_map _ _ _ h4, mset_eq_map _ _ _ h3, mset_eq_map _ _ _ h2, mset_eq_map _ _ _ h1]
  rw [List.map_map, List.map_map, List.map_map]
  have hid : ∀ p ∈ m,
      ((fun p => if p.1 = b then (b, mb) else p) ∘ (fun p => if p.1 = a then (a, ma) else p)
        ∘ (fun p => if p.1 = b then (b, ma) else p) ∘ (fun p => if p.1 = a then (a, mb) else p)) p
        = p := by
    intro p hp
    obtain ⟨k1, w⟩ := p
    simp only [Function.comp]
    by_cases hka : k1 = a
    · have hw : w = ma := by
        have hl := lookup_of_mem_nodup m hnd (k1, w) hp
        rw [show (k1, w).1 = a from hka, ha] at hl
        exact (Option.some_inj.mp hl).symm
      rw [hka, hw]
      by_cases hab : a = b
      · have hmm : ma = mb := by
          rw [← hab, ha] at hb
          exact Option.some_inj.mp hb
        rw [← hab, ← hmm]
        simp
      · have hba : ¬ b = a := fun h => hab h.symm
        simp [hab, hba]
    · by_cases hkb : k1 = b
      · have hw : w = mb := by
          have hl := lookup_of_mem_nodup m hnd (k1, w) hp
          rw [show (k1, w).1 = b from hkb, hb] at hl
          exact (Option.some_inj.mp hl).symm
        rw [hkb, hw]
        have hba : ¬ b = a := fun h => hka (hkb.trans h)
        simp [hba]
      · simp [hka, hkb]
  calc m.map _ = m.map id := List.map_congr_left hid
    _ = m := List.map_id m

/-! ### C2: score monotonicity and the acceptance rule -/

lemma foldl_preserves {α β : Type} (P : α → Prop) (step : α → β → α)
    (hstep : ∀ s x, P s → P (step s x)) :
    ∀ (l : List β) (s : α), P s → P (l.foldl step s) := by
  intro l
  induction l with
  | nil => intro s hs; exact hs
  | cons x l ih => intro s hs; exact ih _ (hstep s x hs)

lemma expectedSyms_length (e N : ℕ) : (expectedSyms e N).length = 27 := by
  simp [expectedSyms]

lemma getD_mem_of_lt (l : List ℕ) (i : ℕ) (h : i < l.length) : l.getD i 0 ∈ l := by
  rw [List.getD_eq_getElem _ _ h]
  exact List.getElem_mem _

/-- Well-formedness of a candidate mapping: unique keys, and every expected
cipher symbol is assigned. -/
def mapWF (syms : List ℕ) (mm : List (ℕ × ℕ)) : Prop :=
  (mm.map Prod.fst).Nodup ∧ ∀ s ∈ syms, (mm.lookup s).isSome

lemma padStep_nodup (st : List (ℕ × ℕ) × List ℕ) (sym : ℕ)
    (h : (st.1.map Prod.fst).Nodup) : ((padStep st sym).1.map Prod.fst).Nodup := by
  unfold padStep
  by_cases hp : (st.1.lookup sym).isSome
  · rw [if_pos hp]
    exact h
  · rw [if_neg hp]
    exact mset_keys_nodup _ _ _ h

lemma padStep_mono (st : List (ℕ × ℕ) × List ℕ) (sym s : ℕ)
    (h : (st.1.lookup s).isSome) : ((padStep st sym).1.lookup s).isSome := by
  unfold padStep
  by_cases hp : (st.1.lookup sym).isSome
  · rw [if_pos hp]
    exact h
  · rw [if_neg hp]
    exact lookup_mset_isSome _ _ _ _ h

lemma padFold_mono (l : List ℕ) (st : List (ℕ × ℕ) × List ℕ) (s : ℕ)
    (h : (st.1.lookup s).isSome) : ((l.foldl padStep st).1.lookup s).isSome := by
  induction l generalizing st with
  | nil => exact h
  | cons x l ih => exact ih _ (padStep_mono st x s h)

lemma padFold_present (l : List ℕ) :
    ∀ (st : List (ℕ × ℕ) × List ℕ) (s : ℕ), s ∈ l →
      ((l.foldl padStep st).1.lookup s).isSome := by
  induction l with
  | nil => intro _ _ hs; cases hs
  | cons x l ih =>
    intro st s hs
    rw [List.foldl_cons]
    rcases List.mem_cons.mp hs with hx | hx
    · subst hx
      refine padFold_mono l (padStep st s) s ?_
      unfold padStep
      by_cases hp : (st.1.lookup s).isSome
      · rw [if_pos hp]
        exact hp
      · rw [if_neg hp]
        rw [lookup_mset_self]
        rfl
    · exact ih (padStep st x) s hx

lemma padMapping_wf (mapping : List (ℕ × ℕ)) (syms : List ℕ)
    (hk : (mapping.map Prod.fst).Nodup) : mapWF syms (padMapping mapping syms) := by
  constructor
  · unfold padMapping
    exact foldl_preserves (fun st => (st.1.map Prod.fst).Nodup) padStep
      (fun s x hs => padStep_nodup s x hs) syms
      (mapping, (List.range 27).filter (fun c => !((mapping.map Prod.snd).contains c))) hk
  · intro s hs
    unfold padMapping
    exact padFold_present syms _ s hs

lemma proposeSwap_wf (syms : List ℕ) (m : List (ℕ × ℕ)) (ij : Fin 27 × Fin 27)
    (h : mapWF syms m) : mapWF syms (proposeSwap syms m ij) := by
  unfold proposeSwap
  exact ⟨mset_keys_nodup _ _ _ (mset_keys_nodup _ _ _ h.1),
    fun s hs => lookup_mset_isSome _ _ _ _ (lookup_mset_isSome _ _ _ _ (h.2 s hs))⟩

lemma isSome_lookup_eq (m : List (ℕ × ℕ)) (k : ℕ) (h : (m.lookup k).isSome) :
    m.lookup k = some ((m.lookup k).getD 0) := by
  cases hx : m.lookup k
  · rw [hx] at h; cases h
  · rfl

/-- The acceptance rule of one `hillClimb` iteration on a well-formed state:
the swap is kept exactly when the rescored mapping strictly beats the best
score, and otherwise the swap-back restores the mapping unchanged. -/
lemma hillStep_eq (cipherNums : List (Option ℕ)) (B : ℕ → ℕ → ℚ) (syms : List ℕ)
    (st : List (ℕ × ℕ) × ℚ) (ij : Fin 27 × Fin 27) (h : mapWF syms st.1)
    (hlen : syms.length = 27) :
    hillStep cipherNums B syms st ij
      = if ij.1 ≠ ij.2 ∧ st.2 < scoreMapping (proposeSwap syms st.1 ij) cipherNums B
        then (proposeSwap syms st.1 ij,
              scoreMapping (proposeSwap syms st.1 ij) cipherNums B)
        else st := by
  unfold hillStep
  by_cases hij : ij.1 = ij.2
  · rw [if_pos hij, if_neg (fun hc => hc.1 hij)]
  · rw [if_neg hij]
    by_cases hsc : st.2 < scoreMapping (proposeSwap syms st.1 ij) cipherNums B
    · rw [if_pos hsc, if_pos ⟨hij, hsc⟩]
    · rw [if_neg hsc, if_neg (fun hc => hsc hc.2)]
      have hamem : syms.getD ij.1 0 ∈ syms :=
        getD_mem_of_lt syms ij.1 (by rw [hlen]; exact ij.1.isLt)
      have hbmem : syms.getD ij.2 0 ∈ syms :=
        getD_mem_of_lt syms ij.2 (by rw [hlen]; exact ij.2.isLt)
      have ha := isSome_lookup_eq st.1 _ (h.2 _ hamem)
      have hb := isSome_lookup_eq st.1 _ (h.2 _ hbmem)
      have hrestore := mset_restore st.1 (syms.getD ij.1 0) (syms.getD ij.2 0)
        ((st.1.lookup (syms.getD ij.1 0)).getD 0)
        ((st.1.lookup (syms.getD ij.2 0)).getD 0) h.1 ha hb
      show (mset (mset (proposeSwap syms st.1 ij) _ _) _ _, st.2) = st
      unfold proposeSwap
      rw [hrestore]

lemma hillStep_snd_ge (cipherNums : List (Option ℕ)) (B : ℕ → ℕ → ℚ) (syms : List ℕ)
    (st : List (ℕ × ℕ) × ℚ) (ij : Fin 27 × Fin 27) :
    st.2 ≤ (hillStep cipherNums B syms st ij).2 := by
  unfold hillStep
  by_cases hij : ij.1 = ij.2
  · rw [if_pos hij]
  · rw [if_neg hij]
    by_cases hsc : st.2 < scoreMapping (proposeSwap syms st.1 ij) cipherNums B
    · rw [if_pos hsc]
      exact le_of_lt hsc
    · rw [if_neg hsc]

lemma hillStep_wf (cipherNums : List (Option ℕ)) (B : ℕ → ℕ → ℚ) (syms : List ℕ)
    (st : List (ℕ × ℕ) × ℚ) (ij : Fin 27 × Fin 27) (h : mapWF syms st.1) :
    mapWF syms (hillStep cipherNums B syms st ij).1 := by
  unfold hillStep
  by_cases hij : ij.1 = ij.2
  · rw [if_pos hij]
    exact h
  · rw [if_neg hij]
    by_cases hsc : st.2 < scoreMapping (proposeSwap syms st.1 ij) cipherNums B
    · rw [if_pos hsc]
      exact proposeSwap_wf syms st.1 ij h
    · rw [if_neg hsc]
      have hw := proposeSwap_wf syms st.1 ij h
      exact ⟨mset_keys_nodup _ _ _ (mset_keys_nodup _ _ _ hw.1),
        fun s hs => lookup_mset_isSome _ _ _ _ (lookup_mset_isSome _ _ _ _ (hw.2 s hs))⟩

lemma hillStep_inv_aux (cipherNums : List (Option ℕ)) (B : ℕ → ℕ → ℚ) (e N : ℕ) :
    ∀ (r : List (Fin 27 × Fin 27)) (st : List (ℕ × ℕ) × ℚ),
      mapWF (expectedSyms e N) st.1 → st.2 = scoreMapping st.1 cipherNums B →
      mapWF (expectedSyms e N)
          (r.foldl (hillStep cipherNums B (expectedSyms e N)) st).1
        ∧ (r.foldl (hillStep cipherNums B (expectedSyms e N)) st).2
            = scoreMapping
                (r.foldl (hillStep cipherNums B (expectedSyms e N)) st).1 cipherNums B := by
  intro r
  induction r with
  | nil => intro st h1 h2; exact ⟨h1, h2⟩
  | cons x r ih =>
    intro st h1 h2
    rw [List.foldl_cons]
    refine ih _ (hillStep_wf cipherNums B _ st x h1) ?_
    rw [hillStep_eq cipherNums B _ st x h1 (expectedSyms_length e N)]
    by_cases hc : x.1 ≠ x.2
        ∧ st.2 < scoreMapping (proposeSwap (expectedSyms e N) st.1 x) cipherNums B
    · rw [if_pos hc]
    · rw [if_neg hc]
      exact h2

lemma hillClimbRun_state_inv (mapping : List (ℕ × ℕ)) (cipherNums : List (Option ℕ))
    (B : ℕ → ℕ → ℚ) (e N : ℕ) (hk : (mapping.map Prod.fst).Nodup)
    (r : List (Fin 27 × Fin 27)) :
    mapWF (expectedSyms e N) (hillClimbRun mapping cipherNums B e N r).1
      ∧ (hillClimbRun mapping cipherNums B e N r).2
          = scoreMapping (hillClimbRun mapping cipherNums B e N r).1 cipherNums B := by
  have hrepr : hillClimbRun mapping cipherNums B e N r
      = r.foldl (hillStep cipherNums B (expectedSyms e N))
          (padMapping mapping (expectedSyms e N),
           scoreMapping (padMapping mapping (expectedSyms e N)) cipherNums B) := rfl
  rw [hrepr]
  have hwf : mapWF (expectedSyms e N) (padMapping mapping (expectedSyms e N)) :=
    padMapping_wf mapping (expectedSyms e N) hk
  with_reducible exact (hillStep_inv_aux cipherNums B e N r
    (padMapping mapping (expectedSyms e N),
     scoreMapping (padMapping mapping (expectedSyms e N)) cipherNums B)
    hwf rfl)

/-- C2: across the iterations of `hillClimb` the best score never decreases;
at every point the best score equals the full bigram score of the current
mapping (so at termination the returned `bestScore` is the score of the final
mapping); and each iteration keeps the proposed pairwise swap exactly when
the recomputed full score strictly exceeds the previous best, otherwise
reverting it and leaving the mapping and the score unchanged. -/
theorem hillClimb_score_monotone (mapping : List (ℕ × ℕ))
    (cipherNums : List (Option ℕ)) (B : ℕ → ℕ → ℚ) (e N : ℕ)
    (hk : (mapping.map Prod.fst).Nodup) :
    (∀ r1 r2, hillClimb mapping cipherNums B e N r1
        ≤ hillClimb mapping cipherNums B e N (r1 ++ r2))
      ∧ (∀ r, hillClimb mapping cipherNums B e N r
          = scoreMapping (hillClimbRun mapping cipherNums B e N r).1 cipherNums B)
      ∧ (∀ r ij, hillClimbRun mapping cipherNums B e N (r ++ [ij])
          = (if ij.1 ≠ ij.2
                ∧ (hillClimbRun mapping cipherNums B e N r).2
                  < scoreMapping
                      (proposeSwap (expectedSyms e N)
                        (hillClimbRun mapping cipherNums B e N r).1 ij) cipherNums B
             then (proposeSwap (expectedSyms e N)
                     (hillClimbRun mapping cipherNums B e N r).1 ij,
                   scoreMapping
                     (proposeSwap (expectedSyms e N)
                       (hillClimbRun mapping cipherNums B e N r).1 ij) cipherNums B)
             else hillClimbRun mapping cipherNums B e N r)) := by
  have happ : ∀ r1 r2, hillClimbRun mapping cipherNums B e N (r1 ++ r2)
      = r2.foldl (hillStep cipherNums B (expectedSyms e N))
          (hillClimbRun mapping cipherNums B e N r1) := by
    intro r1 r2
    unfold hillClimbRun
    rw [List.foldl_append]
  refine ⟨?_, ?_, ?_⟩
  · intro r1 r2
    unfold hillClimb
    rw [happ r1 r2]
    generalize hillClimbRun mapping cipherNums B e N r1 = st
    induction r2 generalizing st with
    | nil => exact le_rfl
    | cons x r2 ih =>
      rw [List.foldl_cons]
      exact le_trans (hillStep_snd_ge cipherNums B _ st x) (ih _)
  · intro r
    exact (hillClimbRun_state_inv mapping cipherNums B e N hk r).2
  · intro r ij
    rw [happ r [ij], List.foldl_cons, List.foldl_nil]
    exact hillStep_eq cipherNums B _ _ ij
      (hillClimbRun_state_inv mapping cipherNums B e N hk r).1 (expectedSyms_length e N)

/-- Witness for `hillClimb_score_monotone` on a concrete instance: identity
seed mapping on the 27 symbols of the toy key `e = 1`, `N = 29`, ciphertext
`[0, 0]`, and a bigram table that favours the decoded pair `(1, 1)`. -/
def cexMapping : List (ℕ × ℕ) := (List.range 27).map fun i => (i, i)

/-- Concrete two-symbol ciphertext used by the hill-climbing witnesses. -/
def cexCipher : List (Option ℕ) := [some 0, some 0]

/-- Concrete bigram table used by the hill-climbing witnesses: score `1` for
the decoded pair `(1, 1)` and `0` otherwise. -/
def cexB : ℕ → ℕ → ℚ := fun a b => if a = 1 ∧ b = 1 then 1 else 0

theorem hillClimb_score_monotone_witness :
    ((cexMapping.map Prod.fst).Nodup)
      ∧ hillClimb cexMapping cexCipher cexB 1 29 []
          ≤ hillClimb cexMapping cexCipher cexB 1 29 ([] ++ [((0 : Fin 27), (1 : Fin 27))])
      ∧ hillClimb cexMapping cexCipher cexB 1 29 [((0 : Fin 27), (1 : Fin 27))]
          = scoreMapping
              (hillClimbRun cexMapping cexCipher cexB 1 29 [((0 : Fin 27), (1 : Fin 27))]).1
              cexCipher cexB := by
  refine ⟨by decide, ?_, ?_⟩
  · exact (hillClimb_score_monotone cexMapping cexCipher cexB 1 29 (by decide)).1
      [] [((0 : Fin 27), (1 : Fin 27))]
  · exact (hillClimb_score_monotone cexMapping cexCipher cexB 1 29 (by decide)).2.1
      [((0 : Fin 27), (1 : Fin 27))]

/-! ### C7: `hillClimb` and the caller's mapping object -/

lemma padFold_frame (l : List ℕ) :
    ∀ (st : List (ℕ × ℕ) × List ℕ) (k : ℕ), k ∉ l →
      ((l.foldl padStep st).1).lookup k = st.1.lookup k := by
  induction l with
  | nil => intro st k _; rfl
  | cons x l ih =>
    intro st k hk
    rw [List.foldl_cons]
    rw [ih (padStep st x) k (fun h => hk (List.mem_cons_of_mem x h))]
    unfold padStep
    by_cases hp : (st.1.lookup x).isSome
    · rw [if_pos hp]
    · rw [if_neg hp]
      exact lookup_mset_other st.1 x _ k (fun h => hk (h ▸ List.mem_cons_self x l))

lemma hillStep_frame (cipherNums : List (Option ℕ)) (B : ℕ → ℕ → ℚ) (syms : List ℕ)
    (st : List (ℕ × ℕ) × ℚ) (ij : Fin 27 × Fin 27) (k : ℕ) (hk : k ∉ syms)
    (hlen : syms.length = 27) :
    ((hillStep cipherNums B syms st ij).1).lookup k = st.1.lookup k := by
  have hka : k ≠ syms.getD ij.1 0 := fun h =>
    hk (h ▸ getD_mem_of_lt syms ij.1 (by rw [hlen]; exact ij.1.isLt))
  have hkb : k ≠ syms.getD ij.2 0 := fun h =>
    hk (h ▸ getD_mem_of_lt syms ij.2 (by rw [hlen]; exact ij.2.isLt))
  unfold hillStep
  by_cases hij : ij.1 = ij.2
  · rw [if_pos hij]
  · rw [if_neg hij]
    by_cases hsc : st.2 < scoreMapping (proposeSwap syms st.1 ij) cipherNums B
    · rw [if_pos hsc]
      unfold proposeSwap
      rw [lookup_mset_other _ _ _ k hkb, lookup_mset_other _ _ _ k hka]
    · rw [if_neg hsc]
      show ((mset (mset (proposeSwap syms st.1 ij) _ _) _ _).lookup k) = _
      unfold proposeSwap
      rw [lookup_mset_other _ _ _ k hkb, lookup_mset_other _ _ _ k hka,
          lookup_mset_other _ _ _ k hkb, lookup_mset_other _ _ _ k hka]

/-- C7 (amended): `hillClimb` *does* mutate the mapping object supplied by
its caller — the padding assignments and every accepted swap persist there,
and `main` reads the refined mapping out of `mappingFreq` after the call —
but the mutation is confined to entries whose key is one of the 27 expected
cipher symbols: an entry under any other key is left exactly as the caller
supplied it, and the ciphertext and bigram-model inputs are only read. -/
theorem hillClimb_frame (mapping : List (ℕ × ℕ)) (cipherNums : List (Option ℕ))
    (B : ℕ → ℕ → ℚ) (e N : ℕ) (rand : List (Fin 27 × Fin 27)) (k : ℕ)
    (hk : k ∉ expectedSyms e N) :
    ((hillClimbRun mapping cipherNums B e N rand).1).lookup k = mapping.lookup k := by
  have hrepr : hillClimbRun mapping cipherNums B e N rand
      = rand.foldl (hillStep cipherNums B (expectedSyms e N))
          (padMapping mapping (expectedSyms e N),
           scoreMapping (padMapping mapping (expectedSyms e N)) cipherNums B) := rfl
  rw [hrepr]
  have hfold : ∀ (r : List (Fin 27 × Fin 27)) (st : List (ℕ × ℕ) × ℚ),
      ((r.foldl (hillStep cipherNums B (expectedSyms e N)) st).1).lookup k
        = st.1.lookup k := by
    intro r
    induction r with
    | nil => intro st; rfl
    | cons x r ih =>
      intro st
      rw [List.foldl_cons, ih (hillStep cipherNums B (expectedSyms e N) st x),
          hillStep_frame cipherNums B _ st x k hk (expectedSyms_length e N)]
  refine @Eq.trans _ _ ((padMapping mapping (expectedSyms e N)).lookup k) _ ?_ ?_
  · with_reducible exact (hfold rand
      (padMapping mapping (expectedSyms e N),
       scoreMapping (padMapping mapping (expectedSyms e N)) cipherNums B))
  · show ((expectedSyms e N).foldl padStep
        (mapping,
         (List.range 27).filter (fun c => !((mapping.map Prod.snd).contains c)))).1.lookup k
        = mapping.lookup k
    exact padFold_frame (expectedSyms e N) _ k hk

/-- Witness for `hillClimb_frame`: the key `100` is not an expected cipher
symbol of the toy key `e = 1`, `N = 29`, and its entry is untouched. -/
theorem hillClimb_frame_witness :
    (100 ∉ expectedSyms 1 29)
      ∧ ((hillClimbRun cexMapping cexCipher cexB 1 29
            [((0 : Fin 27), (1 : Fin 27))]).1).lookup 100 = cexMapping.lookup 100 := by
  refine ⟨by decide, ?_⟩
  exact hillClimb_frame cexMapping cexCipher cexB 1 29 [((0 : Fin 27), (1 : Fin 27))] 100
    (by decide)

section
attribute [local semireducible] Rat.add Rat.mul Rat.inv Rat.sub

set_option maxRecDepth 4000 in
set_option maxHeartbeats 1000000 in
/-- C7 counterexample: on a concrete run (identity seed mapping over the 27
expected symbols of `e = 1, N = 29`, ciphertext `[0, 0]`, a bigram table
rewarding the decoded pair `(1, 1)`, and one iteration drawing `(0, 1)`) the
swap is accepted, so after the call the caller's mapping object differs from
the mapping it supplied: `hillClimb` does not leave its mapping argument
unchanged and returns only the score, not a fresh mapping. -/
theorem hillClimb_mutates_counterexample :
    (hillClimbRun cexMapping cexCipher cexB 1 29 [((0 : Fin 27), (1 : Fin 27))]).1
      ≠ cexMapping
      ∧ (hillClimbRun cexMapping cexCipher cexB 1 29 [((0 : Fin 27), (1 : Fin 27))]).1.lookup 0
          = some 1 := by
  constructor
  · decide
  · decide

end

/-! ### C10: totality and length preservation of the decoding interface -/

lemma mem_of_lookup_eq_some (m : List (ℕ × ℕ)) (k v : ℕ)
    (h : m.lookup k = some v) : (k, v) ∈ m := by
  induction m with
  | nil => cases h
  | cons p m ih =>
    obtain ⟨k1, v1⟩ := p
    rw [lookup_cons_ite] at h
    by_cases hk : k = k1
    · rw [if_pos hk] at h
      obtain rfl : v1 = v := Option.some_inj.mp h
      rw [hk]
      exact List.mem_cons_self _ _
    · rw [if_neg hk] at h
      exact List.mem_cons_of_mem _ (ih h)

lemma decryptTextRSA_length (arr : List (Option ℕ)) (d N : ℕ)
    (hd : ∀ c, some c ∈ arr → modPow c d N < 27) :
    (decryptTextRSA arr d N).length = arr.length := by
  induction arr with
  | nil => rfl
  | cons x arr ih =>
    match x with
    | none =>
      show (27 :: decryptTextRSA arr d N).length = arr.length + 1
      rw [List.length_cons, ih (fun c hc => hd c (List.mem_cons_of_mem _ hc))]
    | some c =>
      have hc : modPow c d N < 27 := hd c (List.mem_cons_self _ _)
      show (if modPow c d N < 27 then modPow c d N :: decryptTextRSA arr d N
            else decryptTextRSA arr d N).length = arr.length + 1
      rw [if_pos hc, List.length_cons, ih (fun c hc => hd c (List.mem_cons_of_mem _ hc))]

lemma decryptTextRSA_qmark (arr : List (Option ℕ)) (d N : ℕ)
    (hd : ∀ c, some c ∈ arr → modPow c d N < 27) :
    ∀ i, i < arr.length →
      ((decryptTextRSA arr d N).getD i 0 = 27 ↔ arr.getD i (some 0) = none) := by
  induction arr with
  | nil => intro i hi; cases hi
  | cons x arr ih =>
    intro i hi
    match x with
    | none =>
      show ((27 :: decryptTextRSA arr d N).getD i 0 = 27 ↔ (none :: arr).getD i (some 0) = none)
      match i with
      | 0 => simp
      | i + 1 =>
        rw [List.getD_cons_succ, List.getD_cons_succ]
        exact ih (fun c hc => hd c (List.mem_cons_of_mem _ hc)) i (Nat.lt_of_succ_lt_succ hi)
    | some c =>
      have hc : modPow c d N < 27 := hd c (List.mem_cons_self _ _)
      show ((if modPow c d N < 27 then modPow c d N :: decryptTextRSA arr d N
             else decryptTextRSA arr d N).getD i 0 = 27
            ↔ (some c :: arr).getD i (some 0) = none)
      rw [if_pos hc]
      match i with
      | 0 =>
        simp only [List.getD_cons_zero]
        constructor
        · intro h
          omega
        · intro h
          cases h
      | i + 1 =>
        rw [List.getD_cons_succ, List.getD_cons_succ]
        exact ih (fun c hc => hd c (List.mem_cons_of_mem _ hc)) i (Nat.lt_of_succ_lt_succ hi)

/-- C10 (amended): `applyMappingToCipher` is total and length-preserving for
every input, with `'?'` exactly at the `null` positions and at the positions
whose symbol is absent from the mapping (mapping values being alphabet
letters); `decryptTextRSA` is total, and is length-preserving with `'?'`
exactly at the `null` positions provided every non-`null` element decrypts
to an alphabet index (`< 27`) — an element decrypting out of range yields
`undefined`, which `join` drops, so that element contributes no output
character at all. -/
theorem decoding_interface_total (arr : List (Option ℕ)) (m : List (ℕ × ℕ)) (d N : ℕ)
    (hm : ∀ p ∈ m, p.2 < 27)
    (hd : ∀ c, some c ∈ arr → modPow c d N < 27) :
    ((applyMappingToCipher arr m).length = arr.length
      ∧ ∀ i, i < arr.length →
          ((applyMappingToCipher arr m).getD i 0 = 27
            ↔ (arr.getD i (some 0) = none
                ∨ ∃ c, arr.getD i (some 0) = some c ∧ m.lookup c = none)))
      ∧ (decryptTextRSA arr d N).length = arr.length
      ∧ (∀ i, i < arr.length →
          ((decryptTextRSA arr d N).getD i 0 = 27 ↔ arr.getD i (some 0) = none)) := by
  refine ⟨⟨List.length_map arr _, ?_⟩,
    decryptTextRSA_length arr d N hd, decryptTextRSA_qmark arr d N hd⟩
  intro i hi
  have hlen : i < (applyMappingToCipher arr m).length := by
    unfold applyMappingToCipher
    rw [List.length_map]
    exact hi
  rw [List.getD_eq_getElem _ _ hlen, List.getD_eq_getElem _ _ hi]
  unfold applyMappingToCipher
  rw [List.getElem_map]
  cases hx : arr[i] with
  | none => simp
  | some c =>
    show (m.lookup c).getD 27 = 27
      ↔ (some c = none ∨ ∃ c', some c = some c' ∧ m.lookup c' = none)
    cases hl : m.lookup c with
    | none =>
      rw [Option.getD_none]
      exact iff_of_true rfl (Or.inr ⟨c, rfl, hl⟩)
    | some v =>
      have hv : v < 27 := hm (c, v) (mem_of_lookup_eq_some m c v hl)
      rw [Option.getD_some]
      refine iff_of_false (by omega) ?_
      rintro (h | ⟨c', hc', hl'⟩)
      · cases h
      · obtain rfl : c = c' := Option.some_inj.mp hc'
        rw [hl] at hl'
        cases hl'

/-- Witness for `decoding_interface_total` on the array
`[some 3, none, some 5]` with the identity-style mapping `cexMapping` and
the toy private key `d = 1`, `N = 29`. -/
theorem decoding_interface_total_witness :
    (∀ p ∈ cexMapping, p.2 < 27)
      ∧ (∀ c, some c ∈ ([some 3, none, some 5] : List (Option ℕ)) → modPow c 1 29 < 27)
      ∧ (applyMappingToCipher [some 3, none, some 5] cexMapping).length = 3
      ∧ (decryptTextRSA [some 3, none, some 5] 1 29).length = 3
      ∧ ((decryptTextRSA [some 3, none, some 5] 1 29).getD 1 0 = 27
          ↔ ([some 3, none, some 5] : List (Option ℕ)).getD 1 (some 0) = none) := by
  have hdw : ∀ c, some c ∈ ([some 3, none, some 5] : List (Option ℕ)) → modPow c 1 29 < 27 := by
    intro c hc
    rcases List.mem_cons.mp hc with h | hc2
    · obtain rfl : 3 = c := Option.some_inj.mp h.symm
      decide
    · rcases List.mem_cons.mp hc2 with h | hc3
      · cases h
      · rcases List.mem_cons.mp hc3 with h | hc4
        · obtain rfl : 5 = c := Option.some_inj.mp h.symm
          decide
        · cases hc4
  refine ⟨by decide, hdw, ?_, ?_, ?_⟩
  · exact ((decoding_interface_total [some 3, none, some 5] cexMapping 1 29
      (by decide) hdw).1).1
  · exact (decoding_interface_total [some 3, none, some 5] cexMapping 1 29
      (by decide) hdw).2.1
  · exact (decoding_interface_total [some 3, none, some 5] cexMapping 1 29
      (by decide) hdw).2.2 1 (by norm_num)

/-- C10 counterexample: `decryptTextRSA` is *not* length-preserving in
general — with `d = 1`, `N = 100`, the single element `50` decrypts to `50`,
`INT2CHAR[50]` is `undefined`, and the joined output is the empty string:
one input element, zero output characters and no `'?'`. -/
theorem decryptTextRSA_drops_counterexample :
    decryptTextRSA [some 50] 1 100 = []
      ∧ ([some 50] : List (Option ℕ)).length = 1 := by
  constructor
  · decide
  · rfl

/-! ### C6: the candidate mapping stays a bijection -/

lemma contains_eq_decide_mem (l : List ℕ) (c : ℕ) :
    l.contains c = decide (c ∈ l) := by
  by_cases h : c ∈ l
  · simp [h, List.elem_iff.mpr h]
  · simp only [h, decide_False]
    cases hc : l.contains c
    · rfl
    · exact absurd (List.elem_iff.mp hc) h

lemma filter_getLast_dropLast :
    ∀ (l : List ℕ), l.Nodup → (hne : l ≠ []) →
      l.filter (fun c => !(c == l.getLast hne)) = l.dropLast := by
  intro l
  induction l with
  | nil => intro _ hne; exact absurd rfl hne
  | cons x xs ih =>
    intro hnd hne
    match xs, ih with
    | [], _ =>
      simp [List.getLast]
    | y :: t, ih =>
      have hne2 : y :: t ≠ [] := by simp
      have hlast : (x :: y :: t).getLast hne = (y :: t).getLast hne2 :=
        List.getLast_cons hne2
      have hxlast : x ≠ (y :: t).getLast hne2 := by
        intro h
        have hmem : (y :: t).getLast hne2 ∈ y :: t := List.getLast_mem hne2
        exact (List.nodup_cons.mp hnd).1 (h ▸ hmem)
      rw [List.filter_cons, hlast]
      have hxkeep : (!(x == (y :: t).getLast hne2)) = true := by
        simp [beq_false_of_ne hxlast]
      rw [if_pos hxkeep, List.dropLast_cons₂]
      congr 1
      exact ih (List.nodup_cons.mp hnd).2 hne2

lemma keys_map_lookup (mm : List (ℕ × ℕ)) (hknd : (mm.map Prod.fst).Nodup) :
    (mm.map Prod.fst).map (fun k => (mm.lookup k).getD 99) = mm.map Prod.snd := by
  induction mm with
  | nil => rfl
  | cons p mm ih =>
    obtain ⟨k1, v1⟩ := p
    rw [List.map_cons] at hknd
    have hk1 : k1 ∉ mm.map Prod.fst := (List.nodup_cons.mp hknd).1
    have hnd2 : (mm.map Prod.fst).Nodup := (List.nodup_cons.mp hknd).2
    rw [List.map_cons, List.map_cons, List.map_cons]
    congr 1
    · show ((((k1, v1) :: mm).lookup k1).getD 99) = v1
      rw [lookup_cons_ite, if_pos rfl]
      rfl
    · rw [← ih hnd2]
      apply List.map_congr_left
      intro k hk
      have hne : k ≠ k1 := fun h => hk1 (h ▸ hk)
      show ((((k1, v1) :: mm).lookup k).getD 99) = ((mm.lookup k).getD 99)
      rw [lookup_cons_ite, if_neg hne]

lemma perm_of_nodup_subset_length (xs ys : List ℕ) (hx : xs.Nodup) (hy : ys.Nodup)
    (hsub : ∀ a ∈ xs, a ∈ ys) (hlen : ys.length ≤ xs.length) : xs.Perm ys := by
  apply List.perm_of_nodup_nodup_toFinset_eq hx hy
  apply Finset.eq_of_subset_of_card_le
  · intro a ha
    rw [List.mem_toFinset] at ha ⊢
    exact hsub a ha
  · rw [List.toFinset_card_of_nodup hx, List.toFinset_card_of_nodup hy]
    exact hlen

/-- A mapping with unique keys drawn from `syms`, pairwise-distinct alphabet
values, and an assignment for every element of `syms` is a bijection from
`syms` onto the alphabet `0, …, 26`. -/
lemma bij_of_wf (mm : List (ℕ × ℕ)) (syms : List ℕ)
    (hsy : syms.Nodup) (hlen : syms.length = 27)
    (hknd : (mm.map Prod.fst).Nodup)
    (hks : ∀ k ∈ mm.map Prod.fst, k ∈ syms)
    (hvnd : (mm.map Prod.snd).Nodup)
    (hva : ∀ v ∈ mm.map Prod.snd, v < 27)
    (hpres : ∀ s ∈ syms, (mm.lookup s).isSome) :
    (syms.map fun s => (mm.lookup s).getD 99).Perm (List.range 27) := by
  have hsub : ∀ s ∈ syms, s ∈ mm.map Prod.fst := by
    intro s hs
    rw [← lookup_isSome_iff]
    exact hpres s hs
  have hperm_keys : (mm.map Prod.fst).Perm syms := by
    apply List.perm_of_nodup_nodup_toFinset_eq hknd hsy
    apply Finset.ext
    intro a
    rw [List.mem_toFinset, List.mem_toFinset]
    exact ⟨hks a, hsub a⟩
  have hklen : (mm.map Prod.fst).length = 27 := by
    rw [hperm_keys.length_eq, hlen]
  have hvals : (mm.map Prod.snd).Perm (List.range 27) := by
    apply perm_of_nodup_subset_length _ _ hvnd (List.nodup_range 27)
    · intro v hv
      rw [List.mem_range]
      exact hva v hv
    · rw [List.length_range, List.length_map, ← List.length_map mm Prod.fst, hklen]
  have h1 : (syms.map fun s => (mm.lookup s).getD 99).Perm
      ((mm.map Prod.fst).map (fun s => (mm.lookup s).getD 99)) :=
    (hperm_keys.map _).symm
  have h2 : ((mm.map Prod.fst).map (fun s => (mm.lookup s).getD 99)).Perm (List.range 27) := by
    rw [keys_map_lookup mm hknd]
    exact hvals
  exact h1.trans h2

/-- The seed-padding invariant: along the padding fold the mapping keeps
unique keys drawn from the symbol list and pairwise-distinct alphabet
values, and the remaining-letters list is exactly the alphabet letters not
yet used as values (so every padded-in letter is fresh). -/
lemma padFold_inv :
    ∀ (l full : List ℕ) (mm : List (ℕ × ℕ)) (rem : List ℕ),
      full.Nodup → full.length = 27 →
      (∀ s ∈ l, s ∈ full) →
      (∀ k ∈ mm.map Prod.fst, k ∈ full) →
      (mm.map Prod.fst).Nodup →
      (mm.map Prod.snd).Nodup →
      (∀ v ∈ mm.map Prod.snd, v < 27) →
      rem = (List.range 27).filter (fun c => !((mm.map Prod.snd).contains c)) →
      (((l.foldl padStep (mm, rem)).1.map Prod.fst).Nodup
        ∧ ((l.foldl padStep (mm, rem)).1.map Prod.snd).Nodup
        ∧ (∀ v ∈ (l.foldl padStep (mm, rem)).1.map Prod.snd, v < 27)
        ∧ (∀ k ∈ (l.foldl padStep (mm, rem)).1.map Prod.fst, k ∈ full)) := by
  intro l
  induction l with
  | nil =>
    intro full mm rem _ _ _ hks hknd hvnd hva _
    exact ⟨hknd, hvnd, hva, hks⟩
  | cons sym l ih =>
    intro full mm rem hfnd hflen hl hks hknd hvnd hva hrem
    rw [List.foldl_cons]
    by_cases hp : (mm.lookup sym).isSome
    · have hstep : padStep (mm, rem) sym = (mm, rem) := by
        unfold padStep
        rw [if_pos hp]
      rw [hstep]
      exact ih full mm rem hfnd hflen (fun s hs => hl s (List.mem_cons_of_mem _ hs))
        hks hknd hvnd hva hrem
    · have hsymfull : sym ∈ full := hl sym (List.mem_cons_self _ _)
      have hsymkeys : sym ∉ mm.map Prod.fst := by
        rw [← lookup_isSome_iff]
        simpa using hp
      have hremnd : rem.Nodup := by
        rw [hrem]
        exact (List.nodup_range 27).filter _
      have hremne : rem ≠ [] := by
        intro hremnil
        have hall : ∀ c ∈ List.range 27, c ∈ mm.map Prod.snd := by
          intro c hc
          by_contra hcv
          have hcmem : c ∈ (List.range 27).filter
              (fun c => !((mm.map Prod.snd).contains c)) := by
            rw [List.mem_filter]
            refine ⟨hc, ?_⟩
            rw [contains_eq_decide_mem]
            simp [hcv]
          rw [← hrem, hremnil] at hcmem
          cases hcmem
        have hv27 : 27 ≤ (mm.map Prod.snd).length := by
          have hsubf : (List.range 27).toFinset ⊆ (mm.map Prod.snd).toFinset := by
            intro c hc
            rw [List.mem_toFinset] at hc ⊢
            exact hall c hc
          have := Finset.card_le_card hsubf
          rw [List.toFinset_card_of_nodup (List.nodup_range 27), List.length_range] at this
          calc 27 ≤ (mm.map Prod.snd).toFinset.card := this
            _ ≤ (mm.map Prod.snd).length := List.toFinset_card_le _
        have hklen : (mm.map Prod.fst).length = 27 := by
          have hle : (mm.map Prod.fst).length ≤ 27 := by
            have hsubf : (mm.map Prod.fst).toFinset ⊆ full.toFinset := by
              intro k hk
              rw [List.mem_toFinset] at hk ⊢
              exact hks k hk
            have := Finset.card_le_card hsubf
            rw [List.toFinset_card_of_nodup hknd, List.toFinset_card_of_nodup hfnd,
                hflen] at this
            exact this
          have hge : 27 ≤ (mm.map Prod.fst).length := by
            rw [List.length_map] at hv27 ⊢
            exact hv27
          omega
        have hkeysperm : (mm.map Prod.fst).Perm full :=
          perm_of_nodup_subset_length _ _ hknd hfnd hks (by rw [hflen, hklen])
        exact hsymkeys (hkeysperm.mem_iff.mpr hsymfull)
      have hlast := List.getLast?_eq_getLast rem hremne
      set v := rem.getLast hremne with hv
      have hvget : rem.getLast?.getD 0 = v := by
        rw [hlast]
        rfl
      have hvmem : v ∈ rem := List.getLast_mem hremne
      have hvrange : v < 27 ∧ v ∉ mm.map Prod.snd := by
        rw [hrem] at hvmem
        rw [List.mem_filter] at hvmem
        obtain ⟨hr, hf⟩ := hvmem
        rw [contains_eq_decide_mem] at hf
        refine ⟨List.mem_range.mp hr, ?_⟩
        by_cases hcv : v ∈ mm.map Prod.snd
        · rw [decide_eq_true hcv] at hf
          cases hf
        · exact hcv
      have hstep : padStep (mm, rem) sym = (mset mm sym v, rem.dropLast) := by
        unfold padStep
        rw [if_neg hp]
        rw [show (mm, rem).2.getLast?.getD 0 = v from hvget]
      rw [hstep]
      have hkeys' : (mset mm sym v).map Prod.fst = mm.map Prod.fst ++ [sym] :=
        mset_map_fst_absent mm sym v hp
      have hvals' : (mset mm sym v).map Prod.snd = mm.map Prod.snd ++ [v] :=
        mset_map_snd_absent mm sym v hp
      apply ih full (mset mm sym v) rem.dropLast hfnd hflen
        (fun s hs => hl s (List.mem_cons_of_mem _ hs))
      · intro k hk
        rw [hkeys'] at hk
        rcases List.mem_append.mp hk with hk | hk
        · exact hks k hk
        · rw [List.mem_singleton.mp hk]
          exact hsymfull
      · rw [hkeys']
        simp [List.nodup_append, hknd, hsymkeys]
      · rw [hvals']
        simp [List.nodup_append, hvnd, hvrange.2]
      · intro w hw
        rw [hvals'] at hw
        rcases List.mem_append.mp hw with hw | hw
        · exact hva w hw
        · rw [List.mem_singleton.mp hw]
          exact hvrange.1
      · have hdrop : rem.dropLast = rem.filter (fun c => !(c == v)) :=
          (filter_getLast_dropLast rem hremnd hremne).symm
        rw [hdrop, hrem, List.filter_filter, hvals']
        apply List.filter_congr
        intro c _
        rw [contains_eq_decide_mem, contains_eq_decide_mem]
        by_cases hc1 : c ∈ mm.map Prod.snd
        · have hc2 : c ∈ mm.map Prod.snd ++ [v] := List.mem_append.mpr (Or.inl hc1)
          simp [hc1, hc2]
        · by_cases hc3 : c = v
          · have hc2 : c ∈ mm.map Prod.snd ++ [v] :=
              List.mem_append.mpr (Or.inr (by rw [hc3]; exact List.mem_singleton_self v))
            simp [hc2, hc3]
          · have hc2 : c ∉ mm.map Prod.snd ++ [v] := by
              intro hc
              rcases List.mem_append.mp hc with h | h
              · exact hc1 h
              · exact hc3 (List.mem_singleton.mp h)
            simp [hc1, hc2, hc3]

lemma lookup_getD_lt_isSome (mm : List (ℕ × ℕ)) (s : ℕ)
    (h : (mm.lookup s).getD 99 < 27) : (mm.lookup s).isSome := by
  cases hx : mm.lookup s
  · rw [hx] at h
    simp at h
  · rfl

lemma bij_presence (mm : List (ℕ × ℕ)) (syms : List ℕ)
    (hbij : (syms.map fun s => (mm.lookup s).getD 99).Perm (List.range 27)) :
    ∀ s ∈ syms, (mm.lookup s).isSome := by
  intro s hs
  apply lookup_getD_lt_isSome
  rw [← List.mem_range]
  exact hbij.mem_iff.mp (List.mem_map.mpr ⟨s, hs, rfl⟩)

/-- Exchanging the letters of two distinct symbols of `syms` preserves the
bijection of the assignment onto the alphabet. -/
lemma proposeSwap_bij (mm : List (ℕ × ℕ)) (syms : List ℕ) (ij : Fin 27 × Fin 27)
    (hsy : syms.Nodup) (hlen : syms.length = 27) (hij : ij.1 ≠ ij.2)
    (hbij : (syms.map fun s => (mm.lookup s).getD 99).Perm (List.range 27)) :
    (syms.map fun s => ((proposeSwap syms mm ij).lookup s).getD 99).Perm (List.range 27) := by
  have hia : (ij.1 : ℕ) < syms.length := by rw [hlen]; exact ij.1.isLt
  have hib : (ij.2 : ℕ) < syms.length := by rw [hlen]; exact ij.2.isLt
  set a := syms.getD ij.1 0 with hadef
  set b := syms.getD ij.2 0 with hbdef
  have hamem : a ∈ syms := getD_mem_of_lt syms ij.1 hia
  have hbmem : b ∈ syms := getD_mem_of_lt syms ij.2 hib
  have hab : a ≠ b := by
    rw [hadef, hbdef, List.getD_eq_getElem _ _ hia, List.getD_eq_getElem _ _ hib]
    intro h
    exact hij (Fin.ext ((hsy.getElem_inj_iff).mp h))
  have hpres := bij_presence mm syms hbij
  have hsa := isSome_lookup_eq mm a (hpres a hamem)
  have hsb := isSome_lookup_eq mm b (hpres b hbmem)
  have hla : (proposeSwap syms mm ij).lookup a = mm.lookup b := by
    unfold proposeSwap
    rw [← hadef, ← hbdef, lookup_mset_other _ b _ a hab, lookup_mset_self]
    exact hsb.symm
  have hlb : (proposeSwap syms mm ij).lookup b = mm.lookup a := by
    unfold proposeSwap
    rw [← hadef, ← hbdef, lookup_mset_self]
    exact hsa.symm
  have hlo : ∀ s, s ≠ a → s ≠ b → (proposeSwap syms mm ij).lookup s = mm.lookup s := by
    intro s hsa' hsb'
    unfold proposeSwap
    rw [← hadef, ← hbdef, lookup_mset_other _ b _ s hsb', lookup_mset_other _ a _ s hsa']
  have hswapdef : ∀ s ∈ syms,
      ((proposeSwap syms mm ij).lookup s).getD 99
        = (mm.lookup (if s = a then b else if s = b then a else s)).getD 99 := by
    intro s _
    by_cases h1 : s = a
    · rw [h1, hla, if_pos rfl]
    · by_cases h2 : s = b
      · rw [h2, hlb, if_neg (fun h => hab (Eq.symm h)), if_pos rfl]
      · rw [hlo s h1 h2, if_neg h1, if_neg h2]
  have hmapeq : (syms.map fun s => ((proposeSwap syms mm ij).lookup s).getD 99)
      = (syms.map fun s => if s = a then b else if s = b then a else s).map
          (fun s => (mm.lookup s).getD 99) := by
    rw [List.map_map]
    exact List.map_congr_left hswapdef
  rw [hmapeq]
  have hinv : ∀ x, (if (if x = a then b else if x = b then a else x) = a then b
      else if (if x = a then b else if x = b then a else x) = b then a
      else (if x = a then b else if x = b then a else x)) = x := by
    intro x
    by_cases h1 : x = a
    · rw [if_pos h1]
      by_cases h2 : b = a
      · rw [if_pos h2, h2, ← h1]
      · rw [if_neg h2, if_pos rfl, ← h1]
    · by_cases h2 : x = b
      · rw [if_neg h1, if_pos h2, if_pos rfl, ← h2]
      · rw [if_neg h1, if_neg h2, if_neg h1, if_neg h2]
  have hswapmem : ∀ x ∈ syms, (if x = a then b else if x = b then a else x) ∈ syms := by
    intro x hx
    by_cases h1 : x = a
    · rw [if_pos h1]
      exact hbmem
    · by_cases h2 : x = b
      · rw [if_neg h1, if_pos h2]
        exact hamem
      · rw [if_neg h1, if_neg h2]
        exact hx
  have hswapinj : Function.Injective (fun x => if x = a then b else if x = b then a else x) := by
    intro x y hxy
    have hxy' : (if x = a then b else if x = b then a else x)
        = (if y = a then b else if y = b then a else y) := hxy
    have h1 := hinv x
    rw [hxy'] at h1
    exact ((hinv y).symm.trans h1).symm
  have hswapperm : (syms.map fun s => if s = a then b else if s = b then a else s).Perm syms := by
    apply perm_of_nodup_subset_length
    · exact hsy.map hswapinj
    · exact hsy
    · intro x hx
      obtain ⟨s, hs, rfl⟩ := List.mem_map.mp hx
      exact hswapmem s hs
    · rw [List.length_map]
  exact (hswapperm.map _).trans hbij

/-- One hill-climbing iteration preserves the bijection invariant (keys
unique, assignment onto the alphabet): the accepted branch is a swap, the
reverted branch restores the previous mapping exactly. -/
lemma hillStep_bij (cipherNums : List (Option ℕ)) (B : ℕ → ℕ → ℚ) (syms : List ℕ)
    (st : List (ℕ × ℕ) × ℚ) (ij : Fin 27 × Fin 27)
    (hsy : syms.Nodup) (hlen : syms.length = 27)
    (hk : (st.1.map Prod.fst).Nodup)
    (hbij : (syms.map fun s => (st.1.lookup s).getD 99).Perm (List.range 27)) :
    (((hillStep cipherNums B syms st ij).1.map Prod.fst).Nodup
      ∧ (syms.map fun s =>
          ((hillStep cipherNums B syms st ij).1.lookup s).getD 99).Perm (List.range 27)) := by
  have hwf : mapWF syms st.1 := ⟨hk, bij_presence st.1 syms hbij⟩
  rw [hillStep_eq cipherNums B syms st ij hwf hlen]
  by_cases hc : ij.1 ≠ ij.2 ∧ st.2 < scoreMapping (proposeSwap syms st.1 ij) cipherNums B
  · rw [if_pos hc]
    exact ⟨(proposeSwap_wf syms st.1 ij hwf).1,
      proposeSwap_bij st.1 syms ij hsy hlen hc.1 hbij⟩
  · rw [if_neg hc]
    exact ⟨hk, hbij⟩

lemma hillFold_bij (cipherNums : List (Option ℕ)) (B : ℕ → ℕ → ℚ) (e N : ℕ)
    (hsy : (expectedSyms e N).Nodup) :
    ∀ (r : List (Fin 27 × Fin 27)) (st : List (ℕ × ℕ) × ℚ),
      (st.1.map Prod.fst).Nodup →
      ((expectedSyms e N).map fun s => (st.1.lookup s).getD 99).Perm (List.range 27) →
      (((r.foldl (hillStep cipherNums B (expectedSyms e N)) st).1.map Prod.fst).Nodup
        ∧ ((expectedSyms e N).map fun s =>
            ((r.foldl (hillStep cipherNums B (expectedSyms e N)) st).1.lookup s).getD 99).Perm
          (List.range 27)) := by
  intro r
  induction r with
  | nil => intro st h1 h2; exact ⟨h1, h2⟩
  | cons x r ih =>
    intro st h1 h2
    rw [List.foldl_cons]
    have hstep := hillStep_bij cipherNums B (expectedSyms e N) st x hsy
      (expectedSyms_length e N) h1 h2
    exact ih _ hstep.1 hstep.2

/-- C6: throughout `hillClimb` the candidate mapping stays a bijection from
the 27 expected cipher symbols onto the 27 alphabet letters: provided the
expected symbols are pairwise distinct and the seed mapping is a partial
injection of expected symbols into the alphabet (as `freqMapping` produces),
after the seed padding and after any number of iterations the assignments of
the expected symbols are a permutation of `0, …, 26`, and from every reachable
state the proposed pairwise swap (the mapping that is either accepted or
reverted) is itself such a bijection. -/
theorem hillClimb_bijection (mapping : List (ℕ × ℕ)) (cipherNums : List (Option ℕ))
    (B : ℕ → ℕ → ℚ) (e N : ℕ)
    (hsy : (expectedSyms e N).Nodup)
    (hk : (mapping.map Prod.fst).Nodup)
    (hks : ∀ k ∈ mapping.map Prod.fst, k ∈ expectedSyms e N)
    (hv : (mapping.map Prod.snd).Nodup)
    (hva : ∀ v ∈ mapping.map Prod.snd, v < 27) :
    ∀ r : List (Fin 27 × Fin 27),
      ((expectedSyms e N).map fun s =>
          ((hillClimbRun mapping cipherNums B e N r).1.lookup s).getD 99).Perm
        (List.range 27)
      ∧ ∀ ij : Fin 27 × Fin 27, ij.1 ≠ ij.2 →
          ((expectedSyms e N).map fun s =>
              ((proposeSwap (expectedSyms e N)
                  (hillClimbRun mapping cipherNums B e N r).1 ij).lookup s).getD 99).Perm
            (List.range 27) := by
  intro r
  have hlen := expectedSyms_length e N
  have hfull : ∀ s ∈ expectedSyms e N, s ∈ expectedSyms e N := fun s hs => hs
  have hpad := padFold_inv (expectedSyms e N) (expectedSyms e N) mapping
    ((List.range 27).filter (fun c => !((mapping.map Prod.snd).contains c)))
    hsy hlen hfull hks hk hv hva rfl
  have hprepr : padMapping mapping (expectedSyms e N)
      = ((expectedSyms e N).foldl padStep (mapping,
          (List.range 27).filter (fun c => !((mapping.map Prod.snd).contains c)))).1 := rfl
  have hbij0 : ((expectedSyms e N).map fun s =>
      ((padMapping mapping (expectedSyms e N)).lookup s).getD 99).Perm (List.range 27) := by
    rw [hprepr]
    refine bij_of_wf _ _ hsy hlen hpad.1 hpad.2.2.2 hpad.2.1 hpad.2.2.1 ?_
    intro s hs
    exact padFold_present (expectedSyms e N) _ s hs
  have hknd0 : ((padMapping mapping (expectedSyms e N)).map Prod.fst).Nodup :=
    (padMapping_wf mapping (expectedSyms e N) hk).1
  have hrepr : hillClimbRun mapping cipherNums B e N r
      = r.foldl (hillStep cipherNums B (expectedSyms e N))
          (padMapping mapping (expectedSyms e N),
           scoreMapping (padMapping mapping (expectedSyms e N)) cipherNums B) := rfl
  have hmain : (((hillClimbRun mapping cipherNums B e N r).1.map Prod.fst).Nodup
      ∧ ((expectedSyms e N).map fun s =>
          ((hillClimbRun mapping cipherNums B e N r).1.lookup s).getD 99).Perm
        (List.range 27)) := by
    rw [hrepr]
    with_reducible exact (hillFold_bij cipherNums B e N hsy r
      (padMapping mapping (expectedSyms e N),
       scoreMapping (padMapping mapping (expectedSyms e N)) cipherNums B) hknd0 hbij0)
  refine ⟨hmain.2, ?_⟩
  intro ij hij
  exact proposeSwap_bij (hillClimbRun mapping cipherNums B e N r).1
    (expectedSyms e N) ij hsy hlen hij hmain.2

/-- Witness for C6 at `p·q = 29`, `e = 1`: the expected symbols are the 27
distinct residues `0, …, 26`, the seed mapping `[(0, 5)]` is a partial
injection, and after the padding and one iteration the assignment is a
permutation of the alphabet. -/
theorem hillClimb_bijection_witness :
    (expectedSyms 1 29).Nodup
    ∧ (([((0:ℕ),(5:ℕ))].map Prod.fst).Nodup)
    ∧ (∀ k ∈ [((0:ℕ),(5:ℕ))].map Prod.fst, k ∈ expectedSyms 1 29)
    ∧ (([((0:ℕ),(5:ℕ))].map Prod.snd).Nodup)
    ∧ (∀ v ∈ [((0:ℕ),(5:ℕ))].map Prod.snd, v < 27)
    ∧ ((expectedSyms 1 29).map fun s =>
        ((hillClimbRun [((0:ℕ),(5:ℕ))] [] (fun _ _ => (0:ℚ)) 1 29
            [((0:Fin 27),(1:Fin 27))]).1.lookup s).getD 99).Perm (List.range 27) :=
  ⟨by decide, by decide, by decide, by decide, by decide,
   (hillClimb_bijection [((0:ℕ),(5:ℕ))] [] (fun _ _ => (0:ℚ)) 1 29
      (by decide) (by decide) (by decide) (by decide) (by decide)
      [((0:Fin 27),(1:Fin 27))]).1⟩
